import Mathlib

/-!
# librtmp Diffie-Hellman key exchange (`librtmp/dh.h`)

A shallow embedding of `isValidPublicKey`, `DHInit`, `DHGenerateKey`,
`DHGetPublicKey` and `DHComputeSharedSecretKey`, and theorems about them.

Conventions of the embedding:

* Values of the type `MP_t` (OpenSSL `BIGNUM *`, libgcrypt `gcry_mpi_t`) are
  mathematical integers, `Int`; a pointer that may be null is an `Option Int`.
* Byte buffers are lists of `UInt8`; a pointer into a buffer is the list from
  that position on.
* `size_t` arguments are natural numbers; the conversion `(int) n` is
  `toInt32`, reduction modulo `2^32` read as a two's complement value.
* What the big-integer engine decides on its own (allocation results, the
  random key pairs, the result of the key computation) is a field of `Backend`.
* The constants `P1024` and `Q1024` of `dhgroups.h` are arguments.
* The flag returned by `isValidPublicKey` does not depend on its third argument,
  so statements about that flag are written with `MP_gethex Q1024` for either
  variant of the macros.
-/

namespace Librtmp

/-! ## The big-integer capability (the `MP_*` macros) -/

/-- The constant `INT_MAX` of `limits.h` for a 32-bit `int`. -/
def INT_MAX : Int := 2 ^ 31 - 1

/-- The conversion `(int) n` of a `size_t`: the low 32 bits, two's complement. -/
def toInt32 (n : Nat) : Int :=
  if n % 2 ^ 32 < 2 ^ 31 then ((n % 2 ^ 32 : Nat) : Int) else ((n % 2 ^ 32 : Nat) : Int) - 2 ^ 32

/-- Result of `MP_set_w(mpi, w)`: the integer `w`. -/
def MP_set_w (w : Nat) : Int := (w : Int)

/-- Three-way comparison `MP_cmp(u, v)` (`BN_cmp`, `gcry_mpi_cmp`). -/
def MP_cmp (u v : Int) : Int :=
  if u < v then -1 else if u = v then 0 else 1

/-- Result of `MP_set(u, v)`: a copy of `v`. -/
def MP_set (v : Int) : Int := v

/-- Result of `MP_sub_w(mpi, w)`: `mpi - w`. -/
def MP_sub_w (mpi : Int) (w : Nat) : Int := mpi - (w : Int)

/-- Comparison `MP_cmp_1(mpi)` of `mpi` with one. -/
def MP_cmp_1 (mpi : Int) : Int := MP_cmp mpi 1

/-- Result of `MP_modexp(r, y, q, p)`: `y ^ q mod p`. -/
def MP_modexp (y q p : Int) : Int := y ^ q.toNat % p

/-- Number of base-256 digits of `v`, counted in at most `fuel` steps. -/
def numBytesAux : Nat → Nat → Nat
  | 0, _ => 0
  | fuel + 1, v => if v = 0 then 0 else numBytesAux fuel (v / 256) + 1

/-- Byte length `MP_bytes(u)` of the magnitude of `u`; zero has length 0. -/
def MP_bytes (u : Int) : Nat := numBytesAux u.natAbs u.natAbs

/-- The `len` low-order bytes of `v`, most significant byte first. -/
def bigEndian : Nat → Nat → List UInt8
  | 0, _ => []
  | len + 1, v => bigEndian len (v / 256) ++ [UInt8.ofNat (v % 256)]

/-- Minimal big-endian encoding of the magnitude of `u` (`BN_bn2bin`,
`GCRYMPI_FMT_USG`): `MP_bytes u` bytes, none for zero. -/
def BN_bn2bin (u : Int) : List UInt8 := bigEndian (MP_bytes u) u.natAbs

/-- Value of a byte string read as an unsigned big-endian integer. -/
def bigEndianValue (buf : List UInt8) : Nat :=
  buf.foldl (fun acc b => acc * 256 + b.toNat) 0

/-- Memory after writing `bytes` at the start of `buf`. -/
def store (buf bytes : List UInt8) : List UInt8 :=
  bytes ++ buf.drop bytes.length

/-- Memory after `memset(buf, c, n)`. -/
def memset (buf : List UInt8) (c : UInt8) (n : Nat) : List UInt8 :=
  List.replicate n c ++ buf.drop n

/-- Memory at `buf` after `MP_setbin(u, buf, len)`.  OpenSSL: `BN_bn2bin(u, buf)`
writes the minimal encoding and ignores `len`.  libgcrypt:
`gcry_mpi_print(GCRYMPI_FMT_USG, buf, len, NULL, u)` writes the minimal
encoding when it fits in `len` bytes and nothing otherwise. -/
def MP_setbin (USE_GNUTLS : Bool) (u : Int) (buf : List UInt8) (len : Nat) : List UInt8 :=
  if USE_GNUTLS then
    if MP_bytes u ≤ len then store buf (BN_bn2bin u) else buf
  else store buf (BN_bn2bin u)

/-- Integer read by `MP_getbin(u, buf, len)` from the first `len` bytes. -/
def MP_getbin (buf : List UInt8) (len : Nat) : Int :=
  (bigEndianValue (buf.take len) : Int)

/-- Value of one hexadecimal digit. -/
def hexDigit (c : Char) : Option Nat :=
  if 48 ≤ c.toNat ∧ c.toNat ≤ 57 then some (c.toNat - 48)
  else if 97 ≤ c.toNat ∧ c.toNat ≤ 102 then some (c.toNat - 87)
  else if 65 ≤ c.toNat ∧ c.toNat ≤ 70 then some (c.toNat - 55)
  else none

/-- Left-to-right accumulation of hexadecimal digits; fails on any other character. -/
def hexAccum : List Char → Nat → Option Nat
  | [], acc => some acc
  | c :: cs, acc =>
    match hexDigit c with
    | none => none
    | some d => hexAccum cs (acc * 16 + d)

/-- Values of the leading run of hexadecimal digits of a string. -/
def hexRun : List Char → List Nat
  | [] => []
  | c :: cs =>
    match hexDigit c with
    | none => []
    | some d => d :: hexRun cs

/-- The base-16 number with the given digits, most significant first. -/
def hexNumber (ds : List Nat) : Nat :=
  ds.foldl (fun acc d => acc * 16 + d) 0

/-- Integer parsed by `MP_gethex(u, hex, res)` in the OpenSSL variant,
`res = BN_hex2bn(u, hex)`, with `none` for `res = 0`.  `BN_hex2bn` refuses the
empty string, takes a leading minus sign, reads the run of hexadecimal digits that
follows up to the first other character, and refuses an empty run. -/
def MP_gethex (hex : String) : Option Int :=
  match hex.toList with
  -- if (a == NULL || *a == 0) return 0;
  | [] => none
  | c :: cs =>
    -- if (*a == '-') { neg = 1; a++; }
    let neg : Bool := decide (c.toNat = 45)
    -- for (i = 0; isxdigit(a[i]); i++) continue;  if (i == 0) return 0;
    let ds := hexRun (if neg then cs else c :: cs)
    if ds = [] then none
    else some (if neg then -((hexNumber ds : Nat) : Int) else ((hexNumber ds : Nat) : Int))

/-- Integer parsed by `MP_gethex(u, hex, res)` in the libgcrypt variant,
`res = (gcry_mpi_scan(u, GCRYMPI_FMT_HEX, hex, 0, 0) == 0)`, with `none` for
`res = 0`.  The scan takes a leading minus sign and then a leading `0x`, and
reads all that follows as hexadecimal digits: no digit gives 0, any other
character is an error. -/
def MP_gethex_gnutls (hex : String) : Option Int :=
  let cs := hex.toList
  -- if (*str == '-') { sign = 1; str++; }
  let neg : Bool := decide (cs.head?.map Char.toNat = some 45)
  let cs := if neg then cs.tail else cs
  -- if (*str == '0' && str[1] == 'x') str += 2;
  let pre : Bool := decide ((cs.take 2).map Char.toNat = [48, 120])
  let cs := if pre then cs.drop 2 else cs
  match hexAccum cs 0 with
  | none => none
  | some v => some (if neg then -((v : Nat) : Int) else ((v : Nat) : Int))

/-- The macro `MP_gethex` of the compiled variant. -/
def MP_gethex_of (USE_GNUTLS : Bool) (hex : String) : Option Int :=
  if USE_GNUTLS then MP_gethex_gnutls hex else MP_gethex hex

/-! ## Diagnostics -/

/-- Log levels of `log.h` used by this header. -/
inductive RTMP_LogLevel where
  | RTMP_LOGERROR
  | RTMP_LOGWARNING
  deriving DecidableEq, Repr

/-- One call of `RTMP_Log`. -/
abbrev LogLine := RTMP_LogLevel × String

/-! ## The context and the engine -/

/-- The structure `MDH` (`DH` of OpenSSL).  The functions below are only applied
to contexts returned by `DHInit`, in which `p` and `g` are set, so these two are
values; the key fields are nullable. -/
structure MDH where
  p : Int
  g : Int
  pub_key : Option Int
  priv_key : Option Int
  length : Int
  deriving DecidableEq, Repr

/-- Build configuration and the outcomes of the engine calls that the header
cannot determine itself. -/
structure Backend where
  /-- Whether the libgcrypt variant of the macros is compiled. -/
  USE_GNUTLS : Bool
  /-- Whether `MDH_new()` returns a context. -/
  MDH_new_ok : Bool
  /-- Whether `MP_new()` returns an integer. -/
  MP_new_ok : Bool
  /-- Whether `MP_set_w` reports success (OpenSSL; libgcrypt returns the integer). -/
  MP_set_w_ok : Bool
  /-- Whether `MP_getbin` returns an integer. -/
  MP_getbin_ok : Bool
  /-- Whether `MP_gethex` in `DHInit` obtains the memory for the integer it parses
  (`BN_hex2bn` returns 0 when it does not). -/
  MP_gethex_ok : Bool
  /-- The pair `(priv_key, pub_key)` produced by the `i`-th call of
  `MDH_generate_key` on the given context, or `none` when the call fails. -/
  generate_key : Nat → MDH → Option (Int × Int)
  /-- The shared value computed from `pub`, `dh->priv_key` and `dh->p`
  (`DH_compute_key`, `gnutls_calc_dh_key`), or `none` when the call fails. -/
  compute_key : Int → Option Int → Int → Option Int

/-! ## `isValidPublicKey` -/

/-- The function `isValidPublicKey(y, p, q)`: the returned flag and the lines
logged.  `y` and `p` are dereferenced, `q` may be null. -/
def isValidPublicKey (y p : Int) (q : Option Int) : Bool × List LogLine :=
  -- MP_set_w(bn, 1); if (MP_cmp(y, bn) < 0)
  let bn := MP_set_w 1
  if MP_cmp y bn < 0 then
    (false, [(RTMP_LogLevel.RTMP_LOGERROR, "DH public key must be at least 2")])
  else
    -- MP_set(bn, p); MP_sub_w(bn, 1); if (MP_cmp(y, bn) > 0)
    let bn := MP_sub_w (MP_set p) 1
    if MP_cmp y bn > 0 then
      (false, [(RTMP_LogLevel.RTMP_LOGERROR, "DH public key must be at most p-2")])
    else
      match q with
      | some q =>
        -- MP_modexp(bn, y, q, p); if (MP_cmp_1(bn) != 0)
        let bn := MP_modexp y q p
        if MP_cmp_1 bn ≠ 0 then
          (true, [(RTMP_LogLevel.RTMP_LOGWARNING, "DH public key does not fulfill y^q mod p = 1")])
        else (true, [])
      | none => (true, [])

/-! ## `DHInit` -/

/-- The function `DHInit(nKeyBits)`: the context, or `none` for a null result. -/
def DHInit (B : Backend) (P1024 : String) (nKeyBits : Int) : Option MDH :=
  -- MDH *dh = MDH_new(); if (!dh) goto failed;
  if !B.MDH_new_ok then none
  -- dh->g = MP_new(); if (!dh->g) goto failed;
  else if !B.MP_new_ok then none
  else
    -- MP_gethex(&dh->p, P1024, res); if (!res) goto failed;
    match (if B.MP_gethex_ok then MP_gethex_of B.USE_GNUTLS P1024 else none) with
    | none => none
    | some p =>
      -- if (!MP_set_w(dh->g, 2)) goto failed;
      if !B.MP_set_w_ok then none
      -- dh->length = nKeyBits; return dh;
      else some { p := p, g := MP_set_w 2, pub_key := none, priv_key := none, length := nKeyBits }

/-! ## `DHGenerateKey` -/

/-- The loop `while (!res)` of `DHGenerateKey`, entered for the `i`-th engine call,
run for at most `fuel` iterations; `none` when the loop has not left by then.
`assert(res)` after `MP_gethex(&q1, Q1024, res)` holds for a constant that the
engine parses; for any other constant `q1` stays null, as in a build without
assertions. -/
def DHGenerateKey_loop (B : Backend) (Q1024 : String) : Nat → Nat → MDH → Option (Int × MDH)
  | 0, _, _ => none
  | fuel + 1, i, dh =>
    -- if (!MDH_generate_key(dh)) return 0;
    match B.generate_key i dh with
    | none =>
      -- the libgcrypt variant assigns the null result to dh->pub_key
      some (0, if B.USE_GNUTLS then { dh with pub_key := none } else dh)
    | some (x, y) =>
      let dh := { dh with pub_key := some y, priv_key := some x }
      -- MP_gethex(&q1, Q1024, res); res = isValidPublicKey(dh->pub_key, dh->p, q1);
      let q1 := MP_gethex_of B.USE_GNUTLS Q1024
      let res := (isValidPublicKey y dh.p q1).1
      if !res then
        -- dh->pub_key = dh->priv_key = 0; and the loop goes on
        DHGenerateKey_loop B Q1024 fuel (i + 1) { dh with pub_key := none, priv_key := none }
      else
        -- while (!res) ends; return 1;
        some (1, dh)

/-- The function `DHGenerateKey(dh)`: the returned int and the context
afterwards, or `none` when the loop is still running after `fuel` iterations. -/
def DHGenerateKey (B : Backend) (Q1024 : String) (fuel : Nat) (dh : Option MDH) :
    Option (Int × Option MDH) :=
  match dh with
  | none => some (0, none)
  | some dh => (DHGenerateKey_loop B Q1024 fuel 0 dh).map (fun r => (r.1, some r.2))

/-! ## `DHGetPublicKey` -/

/-- The function `DHGetPublicKey(dh, pubkey, nPubkeyLen)`: the returned int and
the memory at `pubkey` afterwards. -/
def DHGetPublicKey (B : Backend) (dh : Option MDH) (pubkey : List UInt8) (nPubkeyLen : Nat) :
    Int × List UInt8 :=
  -- if (!dh || !dh->pub_key) return 0;
  match dh with
  | none => (0, pubkey)
  | some dh =>
    match dh.pub_key with
    | none => (0, pubkey)
    | some pub_key =>
      -- len = MP_bytes(dh->pub_key);  (the engine's byte count, an int)
      let len : Int := (MP_bytes pub_key : Int)
      -- if (len <= 0 || len > (int) nPubkeyLen) return 0;
      if len ≤ 0 ∨ len > toInt32 nPubkeyLen then (0, pubkey)
      else
        -- memset(pubkey, 0, nPubkeyLen);
        let pubkey := memset pubkey 0 nPubkeyLen
        -- MP_setbin(dh->pub_key, pubkey + (nPubkeyLen - len), len);
        let off := nPubkeyLen - len.toNat
        (1, pubkey.take off ++ MP_setbin B.USE_GNUTLS pub_key (pubkey.drop off) len.toNat)

/-! ## `DHComputeSharedSecretKey` -/

/-- The call `MDH_compute_key(secret, len, pub, dh)`: the returned int and the
memory at `secret` afterwards.  libgcrypt variant: the function of this header,
which returns 0 after `MP_setbin(sec, secret, len)`.  OpenSSL variant:
`DH_compute_key(secret, pub, dh)`, which writes the minimal encoding and returns
its length. -/
def MDH_compute_key (B : Backend) (secret : List UInt8) (len : Nat) (pub : Int) (dh : MDH) :
    Int × List UInt8 :=
  match B.compute_key pub dh.priv_key dh.p with
  | some sec =>
    if B.USE_GNUTLS then (0, MP_setbin true sec secret len)
    else ((MP_bytes sec : Int), store secret (BN_bn2bin sec))
  | none => (-1, secret)

/-- The function `DHComputeSharedSecretKey(dh, pubkey, nPubkeyLen, secret)`: the
returned int and the memory at `secret` afterwards (`none` for a null `secret`). -/
def DHComputeSharedSecretKey (B : Backend) (Q1024 : String) (dh : Option MDH)
    (pubkey : List UInt8) (nPubkeyLen : Nat) (secret : Option (List UInt8)) :
    Int × Option (List UInt8) :=
  -- if (!dh || !secret || nPubkeyLen >= INT_MAX) return -1;
  match dh, secret with
  | none, _ => (-1, secret)
  | some _, none => (-1, none)
  | some dh, some sec =>
    if (nPubkeyLen : Int) ≥ INT_MAX then (-1, some sec)
    -- MP_getbin(pubkeyBn, pubkey, nPubkeyLen); if (!pubkeyBn) return -1;
    else if !B.MP_getbin_ok then (-1, some sec)
    else
      let pubkeyBn := MP_getbin pubkey nPubkeyLen
      -- MP_gethex(&q1, Q1024, len);
      let q1 := MP_gethex_of B.USE_GNUTLS Q1024
      -- if (isValidPublicKey(pubkeyBn, dh->p, q1)) res = MDH_compute_key(...); else res = -1;
      if (isValidPublicKey pubkeyBn dh.p q1).1 then
        let r := MDH_compute_key B sec nPubkeyLen pubkeyBn dh
        (r.1, some r.2)
      else (-1, some sec)

/-! ## A reference engine for concrete evaluation -/

/-- An engine without failures, for either variant of the macros: the `i`-th
private exponent is `xs i` and the public value is `g ^ x mod p`, the shared
value is `pub ^ priv mod p`. -/
def refBackend (gnutls : Bool) (xs : Nat → Nat) : Backend where
  USE_GNUTLS := gnutls
  MDH_new_ok := true
  MP_new_ok := true
  MP_set_w_ok := true
  MP_getbin_ok := true
  MP_gethex_ok := true
  generate_key := fun i dh => some ((xs i : Int), dh.g ^ xs i % dh.p)
  compute_key := fun pub priv p => priv.map (fun x => pub ^ x.toNat % p)

/-! ## Stating the retry loop and the frame of the validator -/

/-- The context on which the `i`-th call of `MDH_generate_key` is made inside
`DHGenerateKey(dh)`: the caller's context for the first call, and the context
with both key fields set to null after a rejected candidate. -/
def contextAtCall (dh : MDH) (i : Nat) : MDH :=
  match i with
  | 0 => dh
  | _ + 1 => { dh with pub_key := none, priv_key := none }

/-- The big integers that `isValidPublicKey` can reach: its arguments and the
local `bn`. -/
structure ValidatorCells where
  y : Int
  p : Int
  q : Option Int
  bn : Int
  deriving DecidableEq, Repr

/-- The function `isValidPublicKey` as a sequence of assignments to these integers:
the returned flag and the integers when `MP_free(bn)` is reached.  Each macro
writes its first argument, which is `bn` in every call. -/
def isValidPublicKey_cells (c : ValidatorCells) : Bool × ValidatorCells :=
  -- bn = MP_new(); MP_set_w(bn, 1);
  let c := { c with bn := MP_set_w 1 }
  if MP_cmp c.y c.bn < 0 then (false, c)
  else
    -- MP_set(bn, p);
    let c := { c with bn := MP_set c.p }
    -- MP_sub_w(bn, 1);
    let c := { c with bn := MP_sub_w c.bn 1 }
    if MP_cmp c.y c.bn > 0 then (false, c)
    else
      match c.q with
      | some q =>
        -- MP_modexp(bn, y, q, p);
        let c := { c with bn := MP_modexp c.y q c.p }
        (true, c)
      | none => (true, c)

/-- What `DHGetPublicKey` reaches through its two pointers when `dh` is not null:
the context and the caller's buffer. -/
structure ExportState where
  dh : MDH
  pubkey : List UInt8
  deriving DecidableEq, Repr

/-- The function `DHGetPublicKey` for a context that is not null, as a sequence of
assignments: the returned int and the state at the return.  `MP_bytes` and
`MP_setbin` read `dh->pub_key`; `memset` and `MP_setbin` write the buffer. -/
def DHGetPublicKey_state (B : Backend) (st : ExportState) (nPubkeyLen : Nat) :
    Int × ExportState :=
  -- if (!dh->pub_key) return 0;
  match st.dh.pub_key with
  | none => (0, st)
  | some pub_key =>
    -- len = MP_bytes(dh->pub_key);
    let len : Int := (MP_bytes pub_key : Int)
    -- if (len <= 0 || len > (int) nPubkeyLen) return 0;
    if len ≤ 0 ∨ len > toInt32 nPubkeyLen then (0, st)
    else
      -- memset(pubkey, 0, nPubkeyLen);
      let st := { st with pubkey := memset st.pubkey 0 nPubkeyLen }
      -- MP_setbin(dh->pub_key, pubkey + (nPubkeyLen - len), len);
      let off := nPubkeyLen - len.toNat
      let written := MP_setbin B.USE_GNUTLS pub_key (st.pubkey.drop off) len.toNat
      let st := { st with pubkey := st.pubkey.take off ++ written }
      (1, st)

/-- What `DHComputeSharedSecretKey` reaches through `dh` and `secret` when neither
is null: the context and the secret buffer. -/
structure DeriveState where
  dh : MDH
  secret : List UInt8
  deriving DecidableEq, Repr

/-- The function `DHComputeSharedSecretKey` for a context and a secret buffer that
are not null, as a sequence of assignments: the returned int and the state at the
return.  `pubkeyBn` and `q1` are locals; `MDH_compute_key` reads `dh->priv_key`
and `dh->p` and writes the secret buffer. -/
def DHComputeSharedSecretKey_state (B : Backend) (Q1024 : String) (st : DeriveState)
    (pubkey : List UInt8) (nPubkeyLen : Nat) : Int × DeriveState :=
  -- if (nPubkeyLen >= INT_MAX) return -1;
  if (nPubkeyLen : Int) ≥ INT_MAX then (-1, st)
  -- MP_getbin(pubkeyBn, pubkey, nPubkeyLen); if (!pubkeyBn) return -1;
  else if !B.MP_getbin_ok then (-1, st)
  else
    let pubkeyBn := MP_getbin pubkey nPubkeyLen
    -- MP_gethex(&q1, Q1024, len);
    let q1 := MP_gethex_of B.USE_GNUTLS Q1024
    if (isValidPublicKey pubkeyBn st.dh.p q1).1 then
      -- res = MDH_compute_key(secret, nPubkeyLen, pubkeyBn, dh);
      let r := MDH_compute_key B st.secret nPubkeyLen pubkeyBn st.dh
      (r.1, { st with secret := r.2 })
    else (-1, st)

/-! ## Auxiliary facts about the validator -/

lemma MP_cmp_neg_iff (u v : Int) : MP_cmp u v < 0 ↔ u < v := by
  unfold MP_cmp
  split_ifs <;> simp_all

lemma MP_cmp_pos_iff (u v : Int) : MP_cmp u v > 0 ↔ v < u := by
  unfold MP_cmp
  split_ifs <;> simp_all <;> omega

lemma MP_cmp_eq_zero_iff (u v : Int) : MP_cmp u v = 0 ↔ u = v := by
  unfold MP_cmp
  split_ifs <;> simp_all
  omega

/-- The flag returned by `isValidPublicKey` is decided by the two comparisons alone. -/
lemma isValidPublicKey_flag (y p : Int) (q : Option Int) :
    (isValidPublicKey y p q).1 = decide (1 ≤ y ∧ y ≤ p - 1) := by
  simp only [isValidPublicKey, MP_cmp_neg_iff, MP_cmp_pos_iff, MP_set_w, MP_sub_w, MP_set,
    Nat.cast_one]
  by_cases h1 : y < 1
  · have : ¬ (1 ≤ y ∧ y ≤ p - 1) := by omega
    simp [h1, this]
  · by_cases h2 : p - 1 < y
    · have : ¬ (1 ≤ y ∧ y ≤ p - 1) := by omega
      simp [h1, h2, this]
    · have hd : (1 ≤ y ∧ y ≤ p - 1) := by omega
      rw [if_neg h1, if_neg h2]
      cases q with
      | none => simp [hd]
      | some q0 =>
        simp only [hd, and_self, decide_True]
        split_ifs <;> rfl

/-- The flag returned by `isValidPublicKey` is the same for every third argument. -/
lemma isValidPublicKey_flag_any (y p : Int) (q q2 : Option Int) :
    (isValidPublicKey y p q).1 = (isValidPublicKey y p q2).1 := by
  rw [isValidPublicKey_flag, isValidPublicKey_flag]

/-! ## Auxiliary facts about the byte encoding -/

lemma bigEndian_length (len v : Nat) : (bigEndian len v).length = len := by
  induction len generalizing v with
  | zero => rfl
  | succ k ih => simp [bigEndian, ih]

lemma foldl_bytes_acc (l : List UInt8) (acc : Nat) :
    l.foldl (fun a b => a * 256 + b.toNat) acc
      = acc * 256 ^ l.length + l.foldl (fun a b => a * 256 + b.toNat) 0 := by
  induction l generalizing acc with
  | nil => simp
  | cons b t ih =>
    simp only [List.foldl_cons, List.length_cons]
    rw [ih (acc * 256 + b.toNat), ih (0 * 256 + b.toNat)]
    ring

lemma bigEndianValue_append (a b : List UInt8) :
    bigEndianValue (a ++ b) = bigEndianValue a * 256 ^ b.length + bigEndianValue b := by
  unfold bigEndianValue
  rw [List.foldl_append, foldl_bytes_acc]

lemma bigEndianValue_replicate_zero (k : Nat) :
    bigEndianValue (List.replicate k (0 : UInt8)) = 0 := by
  induction k with
  | zero => rfl
  | succ k ih =>
    have h : List.replicate (k + 1) (0 : UInt8) = [0] ++ List.replicate k 0 := rfl
    rw [h, bigEndianValue_append, ih]
    simp [bigEndianValue]

lemma toNat_ofNat_mod (v : Nat) : (UInt8.ofNat (v % 256)).toNat = v % 256 := by
  have h : v % 256 < 256 := Nat.mod_lt _ (by decide)
  simp [UInt8.toNat, UInt8.ofNat, Fin.ofNat, Nat.mod_eq_of_lt h]

lemma bigEndianValue_bigEndian (len v : Nat) :
    bigEndianValue (bigEndian len v) = v % 256 ^ len := by
  induction len generalizing v with
  | zero => simp [bigEndian, bigEndianValue, Nat.mod_one]
  | succ k ih =>
    simp only [bigEndian]
    rw [bigEndianValue_append, ih]
    have e : bigEndianValue [UInt8.ofNat (v % 256)] = v % 256 := by
      simp [bigEndianValue, toNat_ofNat_mod]
    rw [e, List.length_singleton, pow_one, pow_succ, Nat.mul_comm (256 ^ k) 256, Nat.mod_mul]
    ring

lemma lt_pow_numBytesAux (fuel v : Nat) (h : v ≤ fuel) : v < 256 ^ numBytesAux fuel v := by
  induction fuel generalizing v with
  | zero =>
    have : v = 0 := by omega
    simp [this, numBytesAux]
  | succ k ih =>
    unfold numBytesAux
    by_cases hv : v = 0
    · simp [hv]
    · rw [if_neg hv]
      have h1 : v / 256 ≤ k := by omega
      have h2 := ih (v / 256) h1
      rw [pow_succ]
      omega

lemma numBytesAux_pos (fuel v : Nat) (h : v ≤ fuel) (hv : 0 < v) : 0 < numBytesAux fuel v := by
  cases fuel with
  | zero => omega
  | succ k =>
    unfold numBytesAux
    rw [if_neg (by omega)]
    omega

lemma MP_bytes_pos (u : Int) (h : u ≠ 0) : 0 < MP_bytes u :=
  numBytesAux_pos _ _ (le_refl _) (Int.natAbs_pos.mpr h)

lemma natAbs_lt_pow_MP_bytes (u : Int) : u.natAbs < 256 ^ MP_bytes u :=
  lt_pow_numBytesAux _ _ (le_refl _)

lemma BN_bn2bin_length (u : Int) : (BN_bn2bin u).length = MP_bytes u :=
  bigEndian_length _ _

lemma bigEndianValue_BN_bn2bin (u : Int) : bigEndianValue (BN_bn2bin u) = u.natAbs := by
  unfold BN_bn2bin
  rw [bigEndianValue_bigEndian, Nat.mod_eq_of_lt (natAbs_lt_pow_MP_bytes u)]

lemma toInt32_le (n : Nat) : toInt32 n ≤ (n : Int) := by
  unfold toInt32
  have : n % 2 ^ 32 ≤ n := Nat.mod_le _ _
  split_ifs <;> omega

lemma toInt32_of_lt (n : Nat) (h : n < 2 ^ 31) : toInt32 n = (n : Int) := by
  unfold toInt32
  have : n % 2 ^ 32 = n := Nat.mod_eq_of_lt (by omega)
  rw [this, if_pos h]

/-! ## The validator: range checks and the advisory order check -/

/-- Claim C1, evaluated on the code: the lower range check compares `y` with 1, so
the public value `y = 1` is accepted (modulus 23, no subgroup order), and nothing
is logged. -/
theorem isValidPublicKey_one_accepted : isValidPublicKey 1 23 none = (true, []) := by
  decide

/-- Claim C2, evaluated on the code: the upper range check compares `y` with
`p - 1`, so the public value `y = p - 1 = 22` is accepted for the modulus 23. -/
theorem isValidPublicKey_p_minus_one_accepted : isValidPublicKey 22 23 none = (true, []) := by
  decide

/-- Claim C3: the subgroup-order check is advisory.  For every `y`, `p` and optional
`q` the returned flag is the one returned without `q`; a supplied order `q0` only
adds the warning line to the log, exactly when the key is accepted and
`y ^ q0 mod p` is not 1. -/
theorem isValidPublicKey_order_check_advisory (y p : Int) (q : Option Int) :
    (isValidPublicKey y p q).1 = (isValidPublicKey y p none).1 ∧
    ∀ q0 : Int, (isValidPublicKey y p (some q0)).2 =
      (isValidPublicKey y p none).2 ++
        (if (isValidPublicKey y p none).1 = true ∧ y ^ q0.toNat % p ≠ 1 then
          [(RTMP_LogLevel.RTMP_LOGWARNING, "DH public key does not fulfill y^q mod p = 1")]
        else []) := by
  refine ⟨by rw [isValidPublicKey_flag, isValidPublicKey_flag], fun q0 => ?_⟩
  simp only [isValidPublicKey, MP_cmp_neg_iff, MP_cmp_pos_iff, MP_cmp_1, MP_modexp, ne_eq,
    MP_cmp_eq_zero_iff]
  by_cases h1 : y < MP_set_w 1
  · simp [h1]
  · by_cases h2 : MP_sub_w (MP_set p) 1 < y
    · simp [h1, h2]
    · by_cases h3 : y ^ q0.toNat % p = 1 <;> simp [h1, h2, h3]

/-- Claim C4: every `y` with `2 ≤ y ≤ p - 2` is accepted, with or without a
subgroup order. -/
theorem isValidPublicKey_accepts_range (y p : Int) (q : Option Int)
    (h2 : 2 ≤ y) (hp : y ≤ p - 2) : (isValidPublicKey y p q).1 = true := by
  rw [isValidPublicKey_flag]
  exact decide_eq_true ⟨by omega, by omega⟩

/-- Witness for C4: `y = 2` is accepted for the modulus 4 and the order 3. -/
theorem isValidPublicKey_accepts_range_witness :
    (2 : Int) ≤ 2 ∧ (2 : Int) ≤ 4 - 2 ∧ (isValidPublicKey 2 4 (some 3)).1 = true :=
  ⟨by decide, by decide, isValidPublicKey_accepts_range 2 4 (some 3) (by decide) (by decide)⟩

/-! ## Accepted public values in key generation and secret derivation -/

/-- Claim C5, evaluated on the code: in the group `p = 23`, `g = 2` the engine's
first candidate `x = 11`, `y = 2 ^ 11 mod 23 = 1` passes the validator, so
`DHGenerateKey` returns 1 with the public value 1 stored in the context. -/
theorem DHGenerateKey_stores_one :
    DHGenerateKey (refBackend false (fun _ => 11)) "B" 1
        (DHInit (refBackend false (fun _ => 11)) "17" 1024)
      = some (1, some ⟨23, 2, some 1, some 11, 1024⟩) := by
  decide

/-- Claim C6, evaluated on the code: with the libgcrypt variant, the modulus 23
and the private exponent 5, the one-byte peer value `22 = p - 1` passes the
validator; the call returns 0 and writes the secret `22 ^ 5 mod 23 = 22`. -/
theorem DHComputeSharedSecretKey_accepts_p_minus_one :
    DHComputeSharedSecretKey (refBackend true id) "B" (some ⟨23, 2, some 9, some 5, 1024⟩)
        [22] 1 (some [7, 7, 7])
      = (0, some [22, 7, 7]) := by
  decide

/-- When the loop of `DHGenerateKey` returns 1, the context holds a key pair whose
public value passed the two comparisons of the validator, and `p`, `g` and the
length are those of the context it started from. -/
lemma DHGenerateKey_loop_one (B : Backend) (Q1024 : String) (fuel i : Nat) (dh dh2 : MDH)
    (h : DHGenerateKey_loop B Q1024 fuel i dh = some (1, dh2)) :
    ∃ x y : Int, dh2 = ⟨dh.p, dh.g, some y, some x, dh.length⟩ ∧ 1 ≤ y ∧ y ≤ dh.p - 1 := by
  induction fuel generalizing i dh with
  | zero => simp [DHGenerateKey_loop] at h
  | succ k ih =>
    unfold DHGenerateKey_loop at h
    cases hg : B.generate_key i dh with
    | none => simp [hg] at h
    | some xy =>
      obtain ⟨x, y⟩ := xy
      simp only [hg] at h
      by_cases hv : (isValidPublicKey y dh.p (MP_gethex_of B.USE_GNUTLS Q1024)).1 = true
      · simp only [hv, Bool.not_true, Bool.false_eq_true, if_false, Option.some.injEq,
          Prod.mk.injEq, true_and] at h
        rw [isValidPublicKey_flag] at hv
        exact ⟨x, y, h.symm, (of_decide_eq_true hv).1, (of_decide_eq_true hv).2⟩
      · simp only [hv, Bool.not_false, if_true] at h
        exact ih (i + 1) ⟨dh.p, dh.g, none, none, dh.length⟩ h

/-! ## `DHGetPublicKey`: export of the public value -/

/-- The export is refused, and the memory left alone, when the byte length of the
key exceeds `(int) nPubkeyLen`. -/
lemma DHGetPublicKey_refused (B : Backend) (dh : MDH) (y : Int) (buf : List UInt8) (n : Nat)
    (hpub : dh.pub_key = some y) (h : toInt32 n < (MP_bytes y : Int)) :
    DHGetPublicKey B (some dh) buf n = (0, buf) := by
  simp only [DHGetPublicKey, hpub]
  rw [if_pos (Or.inr h)]

/-- The export succeeds when the key is not zero and its byte length is at most
`(int) nPubkeyLen`; the value is written right-aligned after zero bytes. -/
lemma DHGetPublicKey_written (B : Backend) (dh : MDH) (y : Int) (buf : List UInt8) (n : Nat)
    (hpub : dh.pub_key = some y) (hy : y ≠ 0) (h : (MP_bytes y : Int) ≤ toInt32 n) :
    DHGetPublicKey B (some dh) buf n
      = (1, List.replicate (n - MP_bytes y) 0 ++ BN_bn2bin y ++ buf.drop n) := by
  have hpos : 0 < MP_bytes y := MP_bytes_pos y hy
  have hle : MP_bytes y ≤ n := by
    have := toInt32_le n
    omega
  have hc : ¬ ((MP_bytes y : Int) ≤ 0 ∨ (MP_bytes y : Int) > toInt32 n) := by omega
  simp only [DHGetPublicKey, hpub]
  rw [if_neg hc]
  have hoff : n - (MP_bytes y : Int).toNat = n - MP_bytes y := by simp
  have htake : (memset buf 0 n).take (n - MP_bytes y) = List.replicate (n - MP_bytes y) 0 := by
    unfold memset
    rw [List.take_append_of_le_length (by simp), List.take_replicate]
    congr 1
    omega
  have hdrop : (memset buf 0 n).drop (n - MP_bytes y)
      = List.replicate (MP_bytes y) 0 ++ buf.drop n := by
    unfold memset
    rw [List.drop_append_of_le_length (by simp), List.drop_replicate]
    congr 2
    omega
  have hstore : store (List.replicate (MP_bytes y) 0 ++ buf.drop n) (BN_bn2bin y)
      = BN_bn2bin y ++ buf.drop n := by
    unfold store
    rw [BN_bn2bin_length, List.drop_append_of_le_length (by simp), List.drop_replicate]
    simp
  have hset : MP_setbin B.USE_GNUTLS y (List.replicate (MP_bytes y) 0 ++ buf.drop n)
      (MP_bytes y) = BN_bn2bin y ++ buf.drop n := by
    unfold MP_setbin
    cases B.USE_GNUTLS <;> simp [hstore]
  rw [hoff, htake, hdrop]
  simp only [Int.toNat_ofNat, hset, List.append_assoc]

/-- Reading back the `n` bytes of a right-aligned, zero-padded encoding gives the
value. -/
lemma MP_getbin_padded (y : Int) (hy : 0 ≤ y) (k n : Nat) (rest : List UInt8)
    (hn : k + MP_bytes y = n) :
    MP_getbin (List.replicate k 0 ++ BN_bn2bin y ++ rest) n = y := by
  unfold MP_getbin
  have hl : (List.replicate k (0 : UInt8) ++ BN_bn2bin y).length = n := by
    simp [BN_bn2bin_length, hn]
  rw [List.take_append_of_le_length (by omega), List.take_of_length_le (by omega),
    bigEndianValue_append, bigEndianValue_replicate_zero, bigEndianValue_BN_bn2bin]
  simp [Int.natAbs_of_nonneg hy]

/-- The byte length is minimal: a magnitude below `256 ^ L` has at most `L` bytes. -/
lemma numBytesAux_le (fuel v L : Nat) (h : v < 256 ^ L) : numBytesAux fuel v ≤ L := by
  induction fuel generalizing v L with
  | zero => simp [numBytesAux]
  | succ k ih =>
    unfold numBytesAux
    by_cases hv : v = 0
    · simp [hv]
    · rw [if_neg hv]
      cases L with
      | zero => simp at h; omega
      | succ m =>
        have : v / 256 < 256 ^ m := by
          rw [pow_succ] at h
          omega
        have := ih (v / 256) m this
        omega

lemma MP_bytes_le (u : Int) (L : Nat) (h : u.natAbs < 256 ^ L) : MP_bytes u ≤ L :=
  numBytesAux_le _ _ _ h

/-- Claim C8 fails for lengths from `2 ^ 31` on: the context generated in the group
`p = 23`, `g = 2` from the exponent 1 holds `y = 2`, of byte length 1, and the
export into a buffer of `2 ^ 31` bytes returns 0 and leaves the buffer as it was. -/
theorem DHGetPublicKey_refuses_large_length :
    DHGenerateKey (refBackend false (fun _ => 1)) "B" 1 (some ⟨23, 2, none, none, 1024⟩)
      = some (1, some ⟨23, 2, some 2, some 1, 1024⟩) ∧
    MP_bytes 2 ≤ 2147483648 ∧
    DHGetPublicKey (refBackend false (fun _ => 1)) (some ⟨23, 2, some 2, some 1, 1024⟩)
        (List.replicate 2147483648 0) 2147483648
      = (0, List.replicate 2147483648 0) :=
  ⟨by decide, by decide, DHGetPublicKey_refused _ _ 2 _ _ rfl (by decide)⟩

/-- Claim C8, amended: for a context holding a positive public value `y` of minimal
byte length `L = MP_bytes y` and a buffer length `n` with `L ≤ (int) n`,
`DHGetPublicKey` returns 1; whatever the buffer held, its first `n` bytes are
`n - L` zero bytes followed by the `L` bytes of the minimal big-endian encoding of
`y` (`L` is the least number of bytes that holds `y`), the memory after them is
untouched, and reading the `n` bytes back as a big-endian integer gives `y`. -/
theorem DHGetPublicKey_right_aligned (B : Backend) (dh : MDH) (y : Int) (buf : List UInt8)
    (n : Nat) (hpub : dh.pub_key = some y) (hy : 0 < y)
    (hlen : (MP_bytes y : Int) ≤ toInt32 n) :
    DHGetPublicKey B (some dh) buf n
      = (1, List.replicate (n - MP_bytes y) 0 ++ BN_bn2bin y ++ buf.drop n) ∧
    (List.replicate (n - MP_bytes y) (0 : UInt8) ++ BN_bn2bin y).length = n ∧
    (BN_bn2bin y).length = MP_bytes y ∧
    (y.natAbs < 256 ^ MP_bytes y ∧ ∀ L : Nat, y.natAbs < 256 ^ L → MP_bytes y ≤ L) ∧
    MP_getbin (DHGetPublicKey B (some dh) buf n).2 n = y := by
  have hle : MP_bytes y ≤ n := by
    have := toInt32_le n
    omega
  have hw := DHGetPublicKey_written B dh y buf n hpub (by omega) hlen
  refine ⟨hw, ?_, BN_bn2bin_length y,
    ⟨natAbs_lt_pow_MP_bytes y, fun L h => MP_bytes_le y L h⟩, ?_⟩
  · simp [BN_bn2bin_length]
    omega
  · rw [hw]
    exact MP_getbin_padded y (by omega) _ n _ (by omega)

/-- Witness for C8: the value 2 exported into three bytes that held 9, 9, 9. -/
theorem DHGetPublicKey_right_aligned_witness :
    (0 : Int) < 2 ∧ (MP_bytes 2 : Int) ≤ toInt32 3 ∧
    DHGetPublicKey (refBackend false id) (some ⟨23, 2, some 2, some 1, 1024⟩) [9, 9, 9] 3
      = (1, [0, 0, 2]) :=
  ⟨by decide, by decide,
    (DHGetPublicKey_right_aligned (refBackend false id) ⟨23, 2, some 2, some 1, 1024⟩ 2
      [9, 9, 9] 3 rfl (by decide) (by decide)).1.trans (by decide)⟩

/-- Claim C9: for a context holding a public value `y` and a buffer length `n` below
the byte length of `y`, `DHGetPublicKey` returns 0 and the buffer is unchanged. -/
theorem DHGetPublicKey_short_buffer (B : Backend) (dh : MDH) (y : Int) (buf : List UInt8)
    (n : Nat) (hpub : dh.pub_key = some y) (hn : n < MP_bytes y) :
    DHGetPublicKey B (some dh) buf n = (0, buf) := by
  have := toInt32_le n
  exact DHGetPublicKey_refused B dh y buf n hpub (by omega)

/-- Witness for C9: the two-byte value 300 does not fit a one-byte buffer. -/
theorem DHGetPublicKey_short_buffer_witness :
    1 < MP_bytes 300 ∧
    DHGetPublicKey (refBackend false id) (some ⟨1019, 2, some 300, some 4, 1024⟩) [9] 1
      = (0, [9]) :=
  ⟨by decide,
    DHGetPublicKey_short_buffer (refBackend false id) ⟨1019, 2, some 300, some 4, 1024⟩ 300
      [9] 1 rfl (by decide)⟩

/-- A context returned by `DHInit` has the parsed modulus, the generator 2, the
requested length and no keys. -/
lemma DHInit_some (B : Backend) (P1024 : String) (nKeyBits : Int) (dh : MDH)
    (h : DHInit B P1024 nKeyBits = some dh) :
    ∃ p, dh = ⟨p, 2, none, none, nKeyBits⟩ := by
  unfold DHInit at h
  cases h4 : (if B.MP_gethex_ok then MP_gethex_of B.USE_GNUTLS P1024 else none) with
  | none => simp [h4] at h
  | some p =>
    refine ⟨p, ?_⟩
    rw [h4] at h
    split_ifs at h
    simp only [Option.some.injEq] at h
    rw [← h]
    rfl

/-- Claim C10: a context returned by `DHInit` has no public value, and
`DHGetPublicKey` on it, or on no context, returns 0 for every buffer and length
and leaves the buffer unchanged. -/
theorem DHInit_then_DHGetPublicKey_fails (B : Backend) (P1024 : String) (nKeyBits : Int)
    (dh : MDH) (h : DHInit B P1024 nKeyBits = some dh) :
    dh.pub_key = none ∧
    ∀ (buf : List UInt8) (n : Nat),
      DHGetPublicKey B (some dh) buf n = (0, buf) ∧ DHGetPublicKey B none buf n = (0, buf) := by
  have hk : dh.pub_key = none := by
    obtain ⟨p, hp⟩ := DHInit_some B P1024 nKeyBits dh h
    rw [hp]
  refine ⟨hk, fun buf n => ⟨?_, rfl⟩⟩
  simp only [DHGetPublicKey, hk]

/-- Witness for C10: `DHInit(1024)` with the constant "17" for `P1024`. -/
theorem DHInit_then_DHGetPublicKey_fails_witness :
    DHInit (refBackend false id) "17" 1024 = some ⟨23, 2, none, none, 1024⟩ ∧
    (⟨23, 2, none, none, 1024⟩ : MDH).pub_key = none ∧
    ∀ (buf : List UInt8) (n : Nat),
      DHGetPublicKey (refBackend false id) (some ⟨23, 2, none, none, 1024⟩) buf n = (0, buf) ∧
      DHGetPublicKey (refBackend false id) none buf n = (0, buf) :=
  ⟨by decide, DHInit_then_DHGetPublicKey_fails (refBackend false id) "17" 1024
    ⟨23, 2, none, none, 1024⟩ (by decide)⟩

/-! ## Agreement of the two sides of an exchange -/

/-- The export returns 1 exactly when the key is present, has a positive byte
length and that length is at most `(int) nPubkeyLen`. -/
lemma DHGetPublicKey_eq_one (B : Backend) (dh : MDH) (y : Int) (buf : List UInt8) (n : Nat)
    (hpub : dh.pub_key = some y) (h : (DHGetPublicKey B (some dh) buf n).1 = 1) :
    0 < MP_bytes y ∧ (MP_bytes y : Int) ≤ toInt32 n := by
  simp only [DHGetPublicKey, hpub] at h
  by_cases hc : (MP_bytes y : Int) ≤ 0 ∨ (MP_bytes y : Int) > toInt32 n
  · rw [if_pos hc] at h
    simp at h
  · omega

/-- The length guard of `DHComputeSharedSecretKey`: a length from `INT_MAX` on is
refused before anything else happens. -/
lemma DHComputeSharedSecretKey_length_guard (B : Backend) (Q1024 : String) (dh : MDH)
    (pubkey sec : List UInt8) (n : Nat) (h : (n : Int) ≥ INT_MAX) :
    DHComputeSharedSecretKey B Q1024 (some dh) pubkey n (some sec) = (-1, some sec) := by
  simp only [DHComputeSharedSecretKey]
  rw [if_pos h]

/-- The derivation for a valid peer value on which the engine returns `s`. -/
lemma DHComputeSharedSecretKey_computed (B : Backend) (Q1024 : String) (dh : MDH)
    (pubkey sec : List UInt8) (n : Nat) (y s : Int)
    (hn : (n : Int) < INT_MAX) (hbin : B.MP_getbin_ok = true)
    (hy : MP_getbin pubkey n = y)
    (hv : (isValidPublicKey y dh.p (MP_gethex Q1024)).1 = true)
    (hs : B.compute_key y dh.priv_key dh.p = some s) :
    DHComputeSharedSecretKey B Q1024 (some dh) pubkey n (some sec)
      = if B.USE_GNUTLS then (0, some (MP_setbin true s sec n))
        else ((MP_bytes s : Int), some (store sec (BN_bn2bin s))) := by
  have hv2 : (isValidPublicKey y dh.p (MP_gethex_of B.USE_GNUTLS Q1024)).1 = true := by
    rw [isValidPublicKey_flag_any y dh.p _ (MP_gethex Q1024)]
    exact hv
  simp only [DHComputeSharedSecretKey]
  rw [if_neg (by omega), hy, if_pos hv2]
  simp only [hbin, Bool.not_true, Bool.false_eq_true, if_false, MDH_compute_key, hs]
  cases B.USE_GNUTLS <;> simp

/-- Exponentiation of reduced public values commutes modulo `p`. -/
lemma shared_value_comm (g p : Int) (a b : Nat) :
    (g ^ b % p) ^ a % p = (g ^ a % p) ^ b % p := by
  have h1 : (g ^ b % p) ^ a ≡ (g ^ b) ^ a [ZMOD p] := (Int.mod_modEq _ _).pow _
  have h2 : (g ^ a % p) ^ b ≡ (g ^ a) ^ b [ZMOD p] := (Int.mod_modEq _ _).pow _
  have h3 : (g ^ b) ^ a = (g ^ a) ^ b := by rw [← pow_mul, ← pow_mul, mul_comm]
  rw [h3] at h1
  exact h1.trans h2.symm

set_option maxRecDepth 8000 in
/-- Claim C7 fails at the width `INT_MAX`, and in the libgcrypt variant at a width
too short for the secret.  In the group `p = 23`, `g = 2` the contexts with the
exponents 3 and 5 hold the valid public values 8 and 9; both exports into buffers
of `2 ^ 31 - 1` bytes return 1, and the derivation from the exported bytes returns
-1 although the engine does not fail.  In the group `p = 1019`, `g = 2` the
contexts with the exponents 3 and 6 hold the valid public values 8 and 64, of one
byte each; with the libgcrypt variant and the width 1 the derivation returns 0
and writes nothing, the secret `64 ^ 3 mod 1019 = 261` having two bytes. -/
theorem agreement_fails_at_INT_MAX_or_short_width :
    ((8 : Int) = 2 ^ 3 % 23 ∧ (9 : Int) = 2 ^ 5 % 23 ∧
      (isValidPublicKey 8 23 (MP_gethex "B")).1 = true ∧
      (isValidPublicKey 9 23 (MP_gethex "B")).1 = true ∧
      (DHGetPublicKey (refBackend false id) (some ⟨23, 2, some 8, some 3, 1024⟩)
          (List.replicate 2147483647 0) 2147483647).1 = 1 ∧
      (DHGetPublicKey (refBackend false id) (some ⟨23, 2, some 9, some 5, 1024⟩)
          (List.replicate 2147483647 0) 2147483647).1 = 1 ∧
      DHComputeSharedSecretKey (refBackend false id) "B" (some ⟨23, 2, some 8, some 3, 1024⟩)
          (DHGetPublicKey (refBackend false id) (some ⟨23, 2, some 9, some 5, 1024⟩)
            (List.replicate 2147483647 0) 2147483647).2 2147483647 (some [7, 7, 7])
        = (-1, some [7, 7, 7])) ∧
    ((8 : Int) = 2 ^ 3 % 1019 ∧ (64 : Int) = 2 ^ 6 % 1019 ∧
      (isValidPublicKey 8 1019 (MP_gethex "1FD")).1 = true ∧
      (isValidPublicKey 64 1019 (MP_gethex "1FD")).1 = true ∧
      DHGetPublicKey (refBackend true id) (some ⟨1019, 2, some 8, some 3, 1024⟩) [9] 1
        = (1, [8]) ∧
      DHGetPublicKey (refBackend true id) (some ⟨1019, 2, some 64, some 6, 1024⟩) [9] 1
        = (1, [64]) ∧
      (64 : Int) ^ 3 % 1019 = 261 ∧ MP_bytes 261 = 2 ∧
      DHComputeSharedSecretKey (refBackend true id) "1FD"
          (some ⟨1019, 2, some 8, some 3, 1024⟩) [64] 1 (some [7, 7, 7])
        = (0, some [7, 7, 7]) ∧
      DHComputeSharedSecretKey (refBackend true id) "1FD"
          (some ⟨1019, 2, some 64, some 6, 1024⟩) [8] 1 (some [7, 7, 7])
        = (0, some [7, 7, 7])) := by
  refine ⟨⟨by decide, by decide, by decide, by decide, ?_, ?_, ?_⟩,
    ⟨by decide, by decide, by decide, by decide, by decide, by decide, by decide, by decide,
      by decide, by decide⟩⟩
  · rw [DHGetPublicKey_written _ _ 8 _ _ rfl (by decide) (by decide)]
  · rw [DHGetPublicKey_written _ _ 9 _ _ rfl (by decide) (by decide)]
  · exact DHComputeSharedSecretKey_length_guard _ _ _ _ _ _ (by decide)

/-- Claim C7, amended: two contexts share `p` and `g` and hold the exponents `xA`,
`xB` with the public values `yA = g ^ xA mod p`, `yB = g ^ xB mod p`, both accepted
by the validator; both public values are exported by `DHGetPublicKey` into
buffers of the same width `w < INT_MAX`, the engine parses the peer bytes and
returns the shared values, and in the libgcrypt variant the shared value fits in
`w` bytes.  Then `yB ^ xA mod p = yA ^ xB mod p`, and for every secret buffer
the two derivations return the same non-negative result and write the same
secret: the minimal big-endian encoding of that one shared value, which reads
back as the value, at the start of the buffer. -/
theorem DH_agreement (B : Backend) (Q1024 : String) (p g yA yB : Int) (xA xB : Nat)
    (lenA lenB : Int) (bufA bufB : List UInt8) (w : Nat)
    (hyA : yA = g ^ xA % p) (hyB : yB = g ^ xB % p)
    (hvA : (isValidPublicKey yA p (MP_gethex Q1024)).1 = true)
    (hvB : (isValidPublicKey yB p (MP_gethex Q1024)).1 = true)
    (hexpA : (DHGetPublicKey B (some ⟨p, g, some yA, some xA, lenA⟩) bufA w).1 = 1)
    (hexpB : (DHGetPublicKey B (some ⟨p, g, some yB, some xB, lenB⟩) bufB w).1 = 1)
    (hw : (w : Int) < INT_MAX)
    (hbin : B.MP_getbin_ok = true)
    (hkA : B.compute_key yB (some (xA : Int)) p = some (yB ^ xA % p))
    (hkB : B.compute_key yA (some (xB : Int)) p = some (yA ^ xB % p))
    (hfit : B.USE_GNUTLS = true → MP_bytes (yB ^ xA % p) ≤ w) :
    yB ^ xA % p = yA ^ xB % p ∧
    (bigEndianValue (BN_bn2bin (yB ^ xA % p)) : Int) = yB ^ xA % p ∧
    ∀ sec : List UInt8,
      DHComputeSharedSecretKey B Q1024 (some ⟨p, g, some yA, some xA, lenA⟩)
          (DHGetPublicKey B (some ⟨p, g, some yB, some xB, lenB⟩) bufB w).2 w (some sec)
        = DHComputeSharedSecretKey B Q1024 (some ⟨p, g, some yB, some xB, lenB⟩)
          (DHGetPublicKey B (some ⟨p, g, some yA, some xA, lenA⟩) bufA w).2 w (some sec) ∧
      DHComputeSharedSecretKey B Q1024 (some ⟨p, g, some yA, some xA, lenA⟩)
          (DHGetPublicKey B (some ⟨p, g, some yB, some xB, lenB⟩) bufB w).2 w (some sec)
        = ((if B.USE_GNUTLS then 0 else (MP_bytes (yB ^ xA % p) : Int)),
            some (BN_bn2bin (yB ^ xA % p) ++ sec.drop (MP_bytes (yB ^ xA % p)))) ∧
      0 ≤ (DHComputeSharedSecretKey B Q1024 (some ⟨p, g, some yA, some xA, lenA⟩)
          (DHGetPublicKey B (some ⟨p, g, some yB, some xB, lenB⟩) bufB w).2 w (some sec)).1 := by
  have hcomm : yB ^ xA % p = yA ^ xB % p := by
    rw [hyA, hyB]
    exact shared_value_comm g p xA xB
  have hrangeA : 1 ≤ yA ∧ yA ≤ p - 1 := by
    rw [isValidPublicKey_flag] at hvA
    exact of_decide_eq_true hvA
  have hposA : 1 ≤ yA := hrangeA.1
  have hposB : 1 ≤ yB := by
    rw [isValidPublicKey_flag] at hvB
    exact (of_decide_eq_true hvB).1
  have hnonneg : 0 ≤ yB ^ xA % p := Int.emod_nonneg _ (by omega)
  have hlA := DHGetPublicKey_eq_one B _ yA bufA w rfl hexpA
  have hlB := DHGetPublicKey_eq_one B _ yB bufB w rfl hexpB
  have hleA : MP_bytes yA ≤ w := by
    have := toInt32_le w
    omega
  have hleB : MP_bytes yB ≤ w := by
    have := toInt32_le w
    omega
  have hgA : MP_getbin (DHGetPublicKey B (some ⟨p, g, some yA, some xA, lenA⟩) bufA w).2 w
      = yA := by
    rw [DHGetPublicKey_written B _ yA bufA w rfl (by omega) hlA.2]
    exact MP_getbin_padded yA (by omega) _ w _ (by omega)
  have hgB : MP_getbin (DHGetPublicKey B (some ⟨p, g, some yB, some xB, lenB⟩) bufB w).2 w
      = yB := by
    rw [DHGetPublicKey_written B _ yB bufB w rfl (by omega) hlB.2]
    exact MP_getbin_padded yB (by omega) _ w _ (by omega)
  have hval : (bigEndianValue (BN_bn2bin (yB ^ xA % p)) : Int) = yB ^ xA % p := by
    rw [bigEndianValue_BN_bn2bin]
    exact Int.natAbs_of_nonneg hnonneg
  refine ⟨hcomm, hval, fun sec => ?_⟩
  have hA := DHComputeSharedSecretKey_computed B Q1024 ⟨p, g, some yA, some xA, lenA⟩
    (DHGetPublicKey B (some ⟨p, g, some yB, some xB, lenB⟩) bufB w).2 sec w yB
    (yB ^ xA % p) hw hbin hgB hvB hkA
  have hB := DHComputeSharedSecretKey_computed B Q1024 ⟨p, g, some yB, some xB, lenB⟩
    (DHGetPublicKey B (some ⟨p, g, some yA, some xA, lenA⟩) bufA w).2 sec w yA
    (yA ^ xB % p) hw hbin hgA hvA hkB
  have hst : store sec (BN_bn2bin (yB ^ xA % p))
      = BN_bn2bin (yB ^ xA % p) ++ sec.drop (MP_bytes (yB ^ xA % p)) := by
    unfold store
    rw [BN_bn2bin_length]
  have hform : DHComputeSharedSecretKey B Q1024 (some ⟨p, g, some yA, some xA, lenA⟩)
      (DHGetPublicKey B (some ⟨p, g, some yB, some xB, lenB⟩) bufB w).2 w (some sec)
      = ((if B.USE_GNUTLS then 0 else (MP_bytes (yB ^ xA % p) : Int)),
          some (BN_bn2bin (yB ^ xA % p) ++ sec.drop (MP_bytes (yB ^ xA % p)))) := by
    rw [hA]
    cases hG : B.USE_GNUTLS
    · simp [hst]
    · have := hfit hG
      simp [MP_setbin, this, hst]
  refine ⟨?_, hform, ?_⟩
  · rw [hA, hB, hcomm]
  · rw [hform]
    cases B.USE_GNUTLS <;> simp

/-- Witness for C7: the exponents 3 and 5 in the group `p = 23`, `g = 2`, exchanged
in two-byte buffers; both sides derive the secret 16. -/
theorem DH_agreement_witness :
    (8 : Int) = 2 ^ 3 % 23 ∧ (9 : Int) = 2 ^ 5 % 23 ∧
    (isValidPublicKey 8 23 (MP_gethex "B")).1 = true ∧
    (isValidPublicKey 9 23 (MP_gethex "B")).1 = true ∧
    (DHGetPublicKey (refBackend false id) (some ⟨23, 2, some 8, some 3, 1024⟩) [9, 9] 2).1 = 1 ∧
    (DHGetPublicKey (refBackend false id) (some ⟨23, 2, some 9, some 5, 1024⟩) [9, 9] 2).1 = 1 ∧
    ((2 : Nat) : Int) < INT_MAX ∧
    ((9 : Int) ^ 3 % 23 = 8 ^ 5 % 23 ∧
      DHComputeSharedSecretKey (refBackend false id) "B" (some ⟨23, 2, some 8, some 3, 1024⟩)
          (DHGetPublicKey (refBackend false id) (some ⟨23, 2, some 9, some 5, 1024⟩)
            [9, 9] 2).2 2 (some [7, 7, 7])
        = (1, some [16, 7, 7])) := by
  have h := DH_agreement (refBackend false id) "B" 23 2 8 9 3 5 1024 1024 [9, 9] [9, 9] 2
    (by decide) (by decide) (by decide) (by decide) (by decide) (by decide) (by decide)
    rfl (by decide) (by decide) (by decide)
  exact ⟨by decide, by decide, by decide, by decide, by decide, by decide, by decide,
    h.1, (h.2.2 [7, 7, 7]).2.1.trans (by decide)⟩

/-! ## Early rejection in `DHComputeSharedSecretKey` -/

/-- Claim C11: when the context is absent, the secret buffer is absent or
`nPubkeyLen ≥ INT_MAX`, `DHComputeSharedSecretKey` returns -1 and the secret
buffer is as before, for every peer byte string; the peer bytes are not parsed:
the result is the same for every engine and every peer byte string. -/
theorem DHComputeSharedSecretKey_early_reject (B : Backend) (Q1024 : String)
    (dh : Option MDH) (pubkey : List UInt8) (n : Nat) (secret : Option (List UInt8))
    (h : dh = none ∨ secret = none ∨ (n : Int) ≥ INT_MAX) :
    DHComputeSharedSecretKey B Q1024 dh pubkey n secret = (-1, secret) ∧
    ∀ (B2 : Backend) (pubkey2 : List UInt8),
      DHComputeSharedSecretKey B2 Q1024 dh pubkey2 n secret
        = DHComputeSharedSecretKey B Q1024 dh pubkey n secret := by
  have key : ∀ (B0 : Backend) (pk : List UInt8),
      DHComputeSharedSecretKey B0 Q1024 dh pk n secret = (-1, secret) := by
    intro B0 pk
    cases dh with
    | none => simp [DHComputeSharedSecretKey]
    | some d =>
      cases secret with
      | none => simp [DHComputeSharedSecretKey]
      | some sec =>
        have hn : (n : Int) ≥ INT_MAX := by
          rcases h with h | h | h
          · exact absurd h (by simp)
          · exact absurd h (by simp)
          · exact h
        exact DHComputeSharedSecretKey_length_guard B0 Q1024 d pk sec n hn
  exact ⟨key B pubkey, fun B2 pk2 => by rw [key B2 pk2, key B pubkey]⟩

/-- Witness for C11: the length `INT_MAX` with a context and a secret buffer present. -/
theorem DHComputeSharedSecretKey_early_reject_witness :
    ((2147483647 : Nat) : Int) ≥ INT_MAX ∧
    DHComputeSharedSecretKey (refBackend false id) "B" (some ⟨23, 2, some 9, some 5, 1024⟩)
        [8] 2147483647 (some [7, 7, 7])
      = (-1, some [7, 7, 7]) :=
  ⟨by decide,
    (DHComputeSharedSecretKey_early_reject (refBackend false id) "B"
      (some ⟨23, 2, some 9, some 5, 1024⟩) [8] 2147483647 (some [7, 7, 7])
      (Or.inr (Or.inr (by decide)))).1⟩

/-! ## The validator and the export as coded -/

/-- Claim C17: for every `p` (in particular `p ≥ 1`) and every optional `q` the
validator returns true exactly for `1 ≤ y ≤ p - 1`; an accepted value is therefore
not zero, is below `p` and is its own residue modulo `p`. -/
theorem isValidPublicKey_acceptance_set (y p : Int) (q : Option Int) :
    ((isValidPublicKey y p q).1 = true ↔ 1 ≤ y ∧ y ≤ p - 1) ∧
    ((isValidPublicKey y p q).1 = true → y ≠ 0 ∧ 0 < y ∧ y < p ∧ y % p = y) := by
  have hiff : (isValidPublicKey y p q).1 = true ↔ 1 ≤ y ∧ y ≤ p - 1 := by
    rw [isValidPublicKey_flag]
    exact decide_eq_true_iff
  refine ⟨hiff, fun h => ?_⟩
  obtain ⟨h1, h2⟩ := hiff.mp h
  exact ⟨by omega, by omega, by omega, Int.emod_eq_of_lt (by omega) (by omega)⟩

/-- Witness for C17: the modulus 23 and the value 1. -/
theorem isValidPublicKey_acceptance_set_witness :
    (isValidPublicKey 1 23 (some 11)).1 = true ∧
    ((1 : Int) ≤ 1 ∧ (1 : Int) ≤ 23 - 1) ∧
    ((1 : Int) ≠ 0 ∧ (0 : Int) < 1 ∧ (1 : Int) < 23 ∧ (1 : Int) % 23 = 1) :=
  ⟨by decide, (isValidPublicKey_acceptance_set 1 23 (some 11)).1.mp (by decide),
    (isValidPublicKey_acceptance_set 1 23 (some 11)).2 (by decide)⟩

/-- The conversion `(int) n` is negative for `n` from `2 ^ 31` up to `2 ^ 32 - 1`. -/
lemma toInt32_neg (n : Nat) (h1 : 2 ^ 31 ≤ n) (h2 : n < 2 ^ 32) : toInt32 n < 0 := by
  unfold toInt32
  have : n % 2 ^ 32 = n := Nat.mod_eq_of_lt h2
  rw [this, if_neg (by omega)]
  omega

/-- Claim C18: `DHGetPublicKey` returns 1 exactly when the context and the key are
present, the byte length `L` of the key is positive and `L ≤ (int) nPubkeyLen`;
otherwise it returns 0 and leaves the buffer.  Hence it returns 0 for the public
value 0 at every length, and for every length from `2 ^ 31` up to `2 ^ 32 - 1`. -/
theorem DHGetPublicKey_success_iff (B : Backend) (dh : Option MDH) (buf : List UInt8)
    (n : Nat) :
    ((DHGetPublicKey B dh buf n).1 = 1 ↔
      ∃ d y, dh = some d ∧ d.pub_key = some y ∧ 0 < MP_bytes y ∧
        (MP_bytes y : Int) ≤ toInt32 n) ∧
    ((DHGetPublicKey B dh buf n).1 = 1 ∨ DHGetPublicKey B dh buf n = (0, buf)) ∧
    (∀ d, dh = some d → d.pub_key = some 0 → DHGetPublicKey B dh buf n = (0, buf)) ∧
    (2 ^ 31 ≤ n → n < 2 ^ 32 → DHGetPublicKey B dh buf n = (0, buf)) := by
  have hcases : (∃ d y, dh = some d ∧ d.pub_key = some y ∧ 0 < MP_bytes y ∧
        (MP_bytes y : Int) ≤ toInt32 n ∧ (DHGetPublicKey B dh buf n).1 = 1) ∨
      (DHGetPublicKey B dh buf n = (0, buf) ∧
        ¬ ∃ d y, dh = some d ∧ d.pub_key = some y ∧ 0 < MP_bytes y ∧
          (MP_bytes y : Int) ≤ toInt32 n) := by
    cases dh with
    | none => exact Or.inr ⟨rfl, by simp⟩
    | some d =>
      cases hk : d.pub_key with
      | none =>
        refine Or.inr ⟨by simp [DHGetPublicKey, hk], ?_⟩
        rintro ⟨d2, y, hd, hy, -⟩
        simp only [Option.some.injEq] at hd
        rw [← hd, hk] at hy
        exact absurd hy (by simp)
      | some y =>
        by_cases hc : (MP_bytes y : Int) ≤ 0 ∨ (MP_bytes y : Int) > toInt32 n
        · refine Or.inr ⟨?_, ?_⟩
          · simp only [DHGetPublicKey, hk]
            rw [if_pos hc]
          · rintro ⟨d2, y2, hd, hy, h1, h2⟩
            simp only [Option.some.injEq] at hd
            rw [← hd, hk] at hy
            simp only [Option.some.injEq] at hy
            rw [← hy] at h1 h2
            omega
        · refine Or.inl ⟨d, y, rfl, hk, by omega, by omega, ?_⟩
          simp only [DHGetPublicKey, hk]
          rw [if_neg hc]
  have hiff : (DHGetPublicKey B dh buf n).1 = 1 ↔
      ∃ d y, dh = some d ∧ d.pub_key = some y ∧ 0 < MP_bytes y ∧
        (MP_bytes y : Int) ≤ toInt32 n := by
    constructor
    · intro h1
      rcases hcases with ⟨d, y, hd, hy, hp, hl, -⟩ | ⟨h0, -⟩
      · exact ⟨d, y, hd, hy, hp, hl⟩
      · rw [h0] at h1
        exact absurd h1 (by simp)
    · intro hex
      rcases hcases with ⟨d, y, hd, hy, hp, hl, h1⟩ | ⟨-, hno⟩
      · exact h1
      · exact absurd hex hno
  have hzero : ¬ (DHGetPublicKey B dh buf n).1 = 1 → DHGetPublicKey B dh buf n = (0, buf) := by
    intro hne
    rcases hcases with ⟨d, y, hd, hy, hp, hl, h1⟩ | ⟨h0, -⟩
    · exact absurd h1 hne
    · exact h0
  refine ⟨hiff, ?_, ?_, ?_⟩
  · by_cases h1 : (DHGetPublicKey B dh buf n).1 = 1
    · exact Or.inl h1
    · exact Or.inr (hzero h1)
  · intro d hd hk
    apply hzero
    rw [hiff]
    rintro ⟨d2, y, hd2, hy, hp, -⟩
    rw [hd] at hd2
    simp only [Option.some.injEq] at hd2
    rw [← hd2, hk] at hy
    simp only [Option.some.injEq] at hy
    rw [← hy] at hp
    exact absurd hp (by decide)
  · intro h1 h2
    apply hzero
    rw [hiff]
    rintro ⟨d, y, -, -, hp, hl⟩
    have := toInt32_neg n h1 h2
    omega

/-- Witness for C18: the key 2 is exported into three bytes, the key 0 is not, and
the key 2 is not exported at the length `2 ^ 31`. -/
theorem DHGetPublicKey_success_iff_witness :
    (DHGetPublicKey (refBackend false id) (some ⟨23, 2, some 2, some 1, 1024⟩) [9, 9, 9] 3).1
      = 1 ∧
    DHGetPublicKey (refBackend false id) (some ⟨23, 2, some 0, some 1, 1024⟩) [9, 9, 9] 3
      = (0, [9, 9, 9]) ∧
    DHGetPublicKey (refBackend false id) (some ⟨23, 2, some 2, some 1, 1024⟩) [9] 2147483648
      = (0, [9]) :=
  ⟨(DHGetPublicKey_success_iff (refBackend false id) (some ⟨23, 2, some 2, some 1, 1024⟩)
      [9, 9, 9] 3).1.mpr ⟨⟨23, 2, some 2, some 1, 1024⟩, 2, rfl, rfl, by decide, by decide⟩,
    (DHGetPublicKey_success_iff (refBackend false id) (some ⟨23, 2, some 0, some 1, 1024⟩)
      [9, 9, 9] 3).2.2.1 ⟨23, 2, some 0, some 1, 1024⟩ rfl rfl,
    (DHGetPublicKey_success_iff (refBackend false id) (some ⟨23, 2, some 2, some 1, 1024⟩)
      [9] 2147483648).2.2.2 (by decide) (by decide)⟩

/-! ## `DHInit`: the context it builds -/

lemma hexDigit_lt (c : Char) (d : Nat) (h : hexDigit c = some d) : d < 16 := by
  unfold hexDigit at h
  split_ifs at h <;> simp only [Option.some.injEq] at h <;> omega

/-- A successful accumulation read every character as a hexadecimal digit and
computed the base-16 number with these digits, on top of the accumulator. -/
lemma hexAccum_value (cs : List Char) (acc v : Nat) (h : hexAccum cs acc = some v) :
    ∃ ds : List Nat, cs.map hexDigit = ds.map some ∧ (∀ d ∈ ds, d < 16) ∧
      v = acc * 16 ^ ds.length + Nat.ofDigits 16 ds.reverse := by
  induction cs generalizing acc with
  | nil =>
    simp only [hexAccum, Option.some.injEq] at h
    exact ⟨[], rfl, by simp, by simp [h]⟩
  | cons c cs ih =>
    unfold hexAccum at h
    cases hd : hexDigit c with
    | none => simp [hd] at h
    | some d =>
      simp only [hd] at h
      obtain ⟨ds, hmap, hlt, hv⟩ := ih (acc * 16 + d) h
      refine ⟨d :: ds, by simp [hd, hmap], ?_, ?_⟩
      · intro e he
        rcases List.mem_cons.mp he with he | he
        · rw [he]
          exact hexDigit_lt c d hd
        · exact hlt e he
      · rw [hv, List.reverse_cons, Nat.ofDigits_append, List.length_reverse, List.length_cons,
          Nat.ofDigits_singleton]
        ring

/-- A character that is a hexadecimal digit is neither the minus sign nor `x`. -/
lemma hexDigit_some_toNat (c : Char) (d : Nat) (h : hexDigit c = some d) :
    c.toNat ≠ 45 ∧ c.toNat ≠ 120 := by
  unfold hexDigit at h
  split_ifs at h <;> omega

/-- On a string of hexadecimal digits the accumulation computes the base-16 number
with these digits, on top of the accumulator. -/
lemma hexAccum_of_digits (cs : List Char) (ds : List Nat) (acc : Nat)
    (h : cs.map hexDigit = ds.map some) :
    hexAccum cs acc = some (acc * 16 ^ ds.length + Nat.ofDigits 16 ds.reverse) := by
  induction cs generalizing ds acc with
  | nil =>
    cases ds with
    | nil => simp [hexAccum]
    | cons d t => simp at h
  | cons c cs ih =>
    cases ds with
    | nil => simp at h
    | cons d t =>
      simp only [List.map_cons, List.cons.injEq] at h
      unfold hexAccum
      rw [h.1]
      simp only
      rw [ih t (acc * 16 + d) h.2, List.reverse_cons, Nat.ofDigits_append,
        List.length_reverse, List.length_cons, Nat.ofDigits_singleton]
      congr 1
      ring

/-- On a string of hexadecimal digits the leading run is the whole string. -/
lemma hexRun_of_digits (cs : List Char) (ds : List Nat) (h : cs.map hexDigit = ds.map some) :
    hexRun cs = ds := by
  induction cs generalizing ds with
  | nil =>
    cases ds with
    | nil => rfl
    | cons d t => simp at h
  | cons c cs ih =>
    cases ds with
    | nil => simp at h
    | cons d t =>
      simp only [List.map_cons, List.cons.injEq] at h
      unfold hexRun
      rw [h.1]
      simp only
      rw [ih t h.2]

lemma foldl_hex_acc (ds : List Nat) (acc : Nat) :
    ds.foldl (fun a d => a * 16 + d) acc = acc * 16 ^ ds.length + Nat.ofDigits 16 ds.reverse := by
  induction ds generalizing acc with
  | nil => simp
  | cons d t ih =>
    simp only [List.foldl_cons, List.length_cons]
    rw [ih (acc * 16 + d), List.reverse_cons, Nat.ofDigits_append, List.length_reverse,
      Nat.ofDigits_singleton]
    ring

lemma hexNumber_eq (ds : List Nat) : hexNumber ds = Nat.ofDigits 16 ds.reverse := by
  unfold hexNumber
  rw [foldl_hex_acc]
  simp

/-- The OpenSSL variant reads a non-empty string of hexadecimal digits as the
base-16 number it writes. -/
lemma MP_gethex_hex_digits (hex : String) (ds : List Nat) (hne : ds ≠ [])
    (h : hex.toList.map hexDigit = ds.map some) :
    MP_gethex hex = some ((Nat.ofDigits 16 ds.reverse : Nat) : Int) := by
  unfold MP_gethex
  generalize hex.toList = l at h
  cases l with
  | nil =>
    cases ds with
    | nil => exact absurd rfl hne
    | cons d t => simp at h
  | cons c cs =>
    cases ds with
    | nil => exact absurd rfl hne
    | cons d t =>
      have hrun : hexRun (c :: cs) = d :: t := hexRun_of_digits (c :: cs) (d :: t) h
      simp only [List.map_cons, List.cons.injEq] at h
      have h45 : c.toNat ≠ 45 := (hexDigit_some_toNat c d h.1).1
      simp [h45, hrun, hexNumber_eq]

/-- The libgcrypt variant reads a non-empty string of hexadecimal digits as the
base-16 number it writes. -/
lemma MP_gethex_gnutls_hex_digits (hex : String) (ds : List Nat) (hne : ds ≠ [])
    (h : hex.toList.map hexDigit = ds.map some) :
    MP_gethex_gnutls hex = some ((Nat.ofDigits 16 ds.reverse : Nat) : Int) := by
  unfold MP_gethex_gnutls
  generalize hex.toList = l at h
  cases l with
  | nil =>
    cases ds with
    | nil => exact absurd rfl hne
    | cons d t => simp at h
  | cons c cs =>
    cases ds with
    | nil => exact absurd rfl hne
    | cons d t =>
      have hacc := hexAccum_of_digits (c :: cs) (d :: t) 0 h
      simp only [List.map_cons, List.cons.injEq] at h
      have h45 : c.toNat ≠ 45 := (hexDigit_some_toNat c d h.1).1
      have hpre : ¬ (((c :: cs).take 2).map Char.toNat = [48, 120]) := by
        cases cs with
        | nil => simp
        | cons c2 cs2 =>
          cases t with
          | nil => simp at h
          | cons d2 t2 =>
            have h2 := h.2
            simp only [List.map_cons, List.cons.injEq] at h2
            have h120 : c2.toNat ≠ 120 := (hexDigit_some_toNat c2 d2 h2.1).2
            simp [h120]
      simp only [List.head?_cons, Option.map_some', Option.some.injEq, h45, decide_False,
        Bool.false_eq_true, if_false, hpre, hacc]
      simp

/-- Claim C16: for every `nKeyBits`, when the allocations succeed and the engine
parses `P1024` to `p`, `DHInit` returns the context with that `p`, `g = 2`, the
length `nKeyBits` and no keys; for a constant that is a non-empty string of
hexadecimal digits both engines parse it to the base-16 number it writes; when
an allocation, the parsing of `P1024` or the setting of `g` fails `DHInit`
returns no context. -/
theorem DHInit_result (B : Backend) (P1024 : String) (nKeyBits : Int) :
    (∀ p : Int, B.MDH_new_ok = true → B.MP_new_ok = true → B.MP_gethex_ok = true →
      B.MP_set_w_ok = true → MP_gethex_of B.USE_GNUTLS P1024 = some p →
        DHInit B P1024 nKeyBits = some ⟨p, 2, none, none, nKeyBits⟩) ∧
    (∀ ds : List Nat, ds ≠ [] → P1024.toList.map hexDigit = ds.map some →
      MP_gethex_of B.USE_GNUTLS P1024 = some ((Nat.ofDigits 16 ds.reverse : Nat) : Int)) ∧
    ((B.MDH_new_ok = false ∨ B.MP_new_ok = false ∨ B.MP_gethex_ok = false ∨
        MP_gethex_of B.USE_GNUTLS P1024 = none ∨ B.MP_set_w_ok = false) →
      DHInit B P1024 nKeyBits = none) := by
  refine ⟨?_, ?_, ?_⟩
  · intro p h1 h2 h3 h4 h5
    simp [DHInit, h1, h2, h3, h4, h5, MP_set_w]
  · intro ds hne h
    unfold MP_gethex_of
    cases B.USE_GNUTLS
    · simpa using MP_gethex_hex_digits P1024 ds hne h
    · simpa using MP_gethex_gnutls_hex_digits P1024 ds hne h
  · intro h
    unfold DHInit
    rcases h with h | h | h | h | h
    · simp [h]
    · simp [h]
    · simp [h]
    · simp [h]
    · cases (if B.MP_gethex_ok = true then MP_gethex_of B.USE_GNUTLS P1024 else none) <;>
        simp [h]

/-- Witness for C16: the constant "17" with a negative length under both variants,
a parse without memory, and the empty constant, on which `BN_hex2bn` returns 0. -/
theorem DHInit_result_witness :
    DHInit (refBackend false id) "17" (-3) = some ⟨23, 2, none, none, -3⟩ ∧
    MP_gethex_of true "17" = some (((Nat.ofDigits 16 [1, 7].reverse : Nat)) : Int) ∧
    DHInit { refBackend false id with MP_gethex_ok := false } "17" 0 = none ∧
    DHInit (refBackend false id) "" 1024 = none :=
  ⟨(DHInit_result (refBackend false id) "17" (-3)).1 23 rfl rfl rfl rfl (by decide),
    (DHInit_result (refBackend true id) "17" 0).2.1 [1, 7] (by decide) (by decide),
    (DHInit_result { refBackend false id with MP_gethex_ok := false } "17" 0).2.2
      (Or.inr (Or.inr (Or.inl rfl))),
    (DHInit_result (refBackend false id) "" 1024).2.2
      (Or.inr (Or.inr (Or.inr (Or.inl (by decide)))))⟩

/-! ## `DHGenerateKey`: generate and retry -/

/-- One iteration on a rejected candidate: both key fields are cleared and the
loop continues with the next engine call. -/
lemma DHGenerateKey_loop_skip (B : Backend) (Q1024 : String) (f i : Nat) (d : MDH)
    (x y : Int) (hg : B.generate_key i d = some (x, y))
    (hinv : (isValidPublicKey y d.p (MP_gethex Q1024)).1 = false) :
    DHGenerateKey_loop B Q1024 (f + 1) i d
      = DHGenerateKey_loop B Q1024 f (i + 1) ⟨d.p, d.g, none, none, d.length⟩ := by
  have hinv2 : (isValidPublicKey y d.p (MP_gethex_of B.USE_GNUTLS Q1024)).1 = false := by
    rw [isValidPublicKey_flag_any y d.p _ (MP_gethex Q1024)]
    exact hinv
  rw [DHGenerateKey_loop]
  simp only [hg, hinv2, Bool.not_false, if_true]

/-- One iteration on an accepted candidate: the pair is stored and 1 is returned. -/
lemma DHGenerateKey_loop_accept (B : Backend) (Q1024 : String) (f i : Nat) (d : MDH)
    (x y : Int) (hg : B.generate_key i d = some (x, y))
    (hv : (isValidPublicKey y d.p (MP_gethex Q1024)).1 = true) :
    DHGenerateKey_loop B Q1024 (f + 1) i d
      = some (1, ⟨d.p, d.g, some y, some x, d.length⟩) := by
  have hv2 : (isValidPublicKey y d.p (MP_gethex_of B.USE_GNUTLS Q1024)).1 = true := by
    rw [isValidPublicKey_flag_any y d.p _ (MP_gethex Q1024)]
    exact hv
  rw [DHGenerateKey_loop]
  simp only [hg, hv2, Bool.not_true, Bool.false_eq_true, if_false]

/-- One iteration on an engine failure: 0 is returned. -/
lemma DHGenerateKey_loop_engine_fails (B : Backend) (Q1024 : String) (f i : Nat) (d : MDH)
    (hg : B.generate_key i d = none) :
    DHGenerateKey_loop B Q1024 (f + 1) i d
      = some (0, if B.USE_GNUTLS then ⟨d.p, d.g, none, d.priv_key, d.length⟩ else d) := by
  rw [DHGenerateKey_loop]
  simp only [hg]

lemma contextAtCall_succ (dh : MDH) (i : Nat) :
    contextAtCall dh (i + 1) = ⟨dh.p, dh.g, none, none, dh.length⟩ := rfl

lemma contextAtCall_fields (dh : MDH) (i : Nat) :
    (contextAtCall dh i).p = dh.p ∧ (contextAtCall dh i).g = dh.g ∧
      (contextAtCall dh i).length = dh.length := by
  cases i <;> exact ⟨rfl, rfl, rfl⟩

/-- After `j` rejected candidates the loop stands at the `j`-th engine call with
`j` iterations used. -/
lemma DHGenerateKey_loop_rejected (B : Backend) (Q1024 : String) (dh : MDH)
    (xs ys : Nat → Int) (k : Nat)
    (hearlier : ∀ i < k, B.generate_key i (contextAtCall dh i) = some (xs i, ys i) ∧
      (isValidPublicKey (ys i) dh.p (MP_gethex Q1024)).1 = false)
    (j : Nat) (hj : j ≤ k) (f : Nat) :
    DHGenerateKey_loop B Q1024 (f + j) 0 dh
      = DHGenerateKey_loop B Q1024 f j (contextAtCall dh j) := by
  induction j generalizing f with
  | zero => rfl
  | succ j ih =>
    have hlt : j < k := by omega
    obtain ⟨hg, hinv⟩ := hearlier j hlt
    obtain ⟨hp, hgg, hl⟩ := contextAtCall_fields dh j
    have e : f + (j + 1) = (f + 1) + j := by omega
    rw [e, ih (by omega) (f + 1),
      DHGenerateKey_loop_skip B Q1024 f j (contextAtCall dh j) (xs j) (ys j) hg
        (by rw [hp]; exact hinv),
      contextAtCall_succ, hp, hgg, hl]

/-- Claim C14: let the engine produce the candidates `(xs i, ys i)` at the calls
`i < k`, all rejected by the validator against the context's `p` and `Q1024`.
Every such candidate is discarded, the next call being made on the context with
both key fields null.  If the `k`-th call produces an accepted `(xs k, ys k)`,
`DHGenerateKey` terminates within `k + 1` iterations, returns 1 and the context
holds exactly that pair; if the `k`-th call fails, it returns 0. -/
theorem DHGenerateKey_retry (B : Backend) (Q1024 : String) (dh : MDH) (xs ys : Nat → Int)
    (k fuel : Nat) (hfuel : k < fuel)
    (hearlier : ∀ i < k, B.generate_key i (contextAtCall dh i) = some (xs i, ys i) ∧
      (isValidPublicKey (ys i) dh.p (MP_gethex Q1024)).1 = false) :
    (∀ i < k, ∀ f : Nat,
      DHGenerateKey_loop B Q1024 (f + 1) i (contextAtCall dh i)
        = DHGenerateKey_loop B Q1024 f (i + 1) ⟨dh.p, dh.g, none, none, dh.length⟩) ∧
    (B.generate_key k (contextAtCall dh k) = some (xs k, ys k) →
      (isValidPublicKey (ys k) dh.p (MP_gethex Q1024)).1 = true →
      DHGenerateKey B Q1024 fuel (some dh)
        = some (1, some ⟨dh.p, dh.g, some (ys k), some (xs k), dh.length⟩)) ∧
    (B.generate_key k (contextAtCall dh k) = none →
      ∃ d : MDH, DHGenerateKey B Q1024 fuel (some dh) = some (0, some d)) := by
  obtain ⟨hp, hgg, hl⟩ := contextAtCall_fields dh k
  have hfuel2 : fuel = (fuel - k - 1 + 1) + k := by omega
  have hstart : DHGenerateKey_loop B Q1024 fuel 0 dh
      = DHGenerateKey_loop B Q1024 (fuel - k - 1 + 1) k (contextAtCall dh k) := by
    conv_lhs => rw [hfuel2]
    exact DHGenerateKey_loop_rejected B Q1024 dh xs ys k hearlier k (le_refl k) _
  refine ⟨?_, ?_, ?_⟩
  · intro i hi f
    obtain ⟨hg, hinv⟩ := hearlier i hi
    obtain ⟨hp2, hg2, hl2⟩ := contextAtCall_fields dh i
    rw [DHGenerateKey_loop_skip B Q1024 f i (contextAtCall dh i) (xs i) (ys i) hg
      (by rw [hp2]; exact hinv), hp2, hg2, hl2]
  · intro hg hv
    simp only [DHGenerateKey]
    rw [hstart, DHGenerateKey_loop_accept B Q1024 _ k (contextAtCall dh k) (xs k) (ys k) hg
      (by rw [hp]; exact hv), hp, hgg, hl]
    rfl
  · intro hg
    simp only [DHGenerateKey]
    rw [hstart, DHGenerateKey_loop_engine_fails B Q1024 _ k (contextAtCall dh k) hg]
    exact ⟨_, rfl⟩

/-- Witness for C14: in the group `p = 8`, `g = 2` the first candidate
`2 ^ 3 mod 8 = 0` is rejected and the second, `2 ^ 1 mod 8 = 2`, is kept; with an
engine that fails at the second call the result is 0. -/
theorem DHGenerateKey_retry_witness :
    DHGenerateKey (refBackend false (fun i => if i = 0 then 3 else 1)) "B" 2
        (some ⟨8, 2, none, none, 1024⟩)
      = some (1, some ⟨8, 2, some 2, some 1, 1024⟩) ∧
    ∃ d : MDH,
      DHGenerateKey
          { refBackend false id with
            generate_key := fun i dh => if i = 0 then some (3, dh.g ^ 3 % dh.p) else none }
          "B" 2 (some ⟨8, 2, none, none, 1024⟩)
        = some (0, some d) :=
  ⟨(DHGenerateKey_retry (refBackend false (fun i => if i = 0 then 3 else 1)) "B"
      ⟨8, 2, none, none, 1024⟩ (fun i => if i = 0 then 3 else 1)
      (fun i => if i = 0 then 0 else 2) 1 2 (by decide) (by decide)).2.1
      (by decide) (by decide),
    (DHGenerateKey_retry
      { refBackend false id with
        generate_key := fun i dh => if i = 0 then some (3, dh.g ^ 3 % dh.p) else none }
      "B" ⟨8, 2, none, none, 1024⟩ (fun _ => 3) (fun _ => 0) 1 2 (by decide)
      (by decide)).2.2 (by decide)⟩

/-! ## Group parameters are not modified -/

/-- Whatever the loop of `DHGenerateKey` returns, `p`, `g` and the length of the
context are those it started from. -/
lemma DHGenerateKey_loop_frame (B : Backend) (Q1024 : String) (fuel i : Nat) (dh d2 : MDH)
    (r : Int) (h : DHGenerateKey_loop B Q1024 fuel i dh = some (r, d2)) :
    d2.p = dh.p ∧ d2.g = dh.g ∧ d2.length = dh.length := by
  induction fuel generalizing i dh with
  | zero => simp [DHGenerateKey_loop] at h
  | succ k ih =>
    cases hg : B.generate_key i dh with
    | none =>
      rw [DHGenerateKey_loop_engine_fails B Q1024 k i dh hg] at h
      simp only [Option.some.injEq, Prod.mk.injEq] at h
      rw [← h.2]
      cases B.USE_GNUTLS <;> exact ⟨rfl, rfl, rfl⟩
    | some xy =>
      obtain ⟨x, y⟩ := xy
      cases hv : (isValidPublicKey y dh.p (MP_gethex Q1024)).1 with
      | true =>
        rw [DHGenerateKey_loop_accept B Q1024 k i dh x y hg hv] at h
        simp only [Option.some.injEq, Prod.mk.injEq] at h
        rw [← h.2]
        exact ⟨rfl, rfl, rfl⟩
      | false =>
        rw [DHGenerateKey_loop_skip B Q1024 k i dh x y hg hv] at h
        exact ih (i + 1) ⟨dh.p, dh.g, none, none, dh.length⟩ h

/-- The state-passing form of `DHGetPublicKey` leaves the context and returns what
`DHGetPublicKey` returns. -/
lemma DHGetPublicKey_state_spec (B : Backend) (st : ExportState) (n : Nat) :
    (DHGetPublicKey_state B st n).2.dh = st.dh ∧
    ((DHGetPublicKey_state B st n).1, (DHGetPublicKey_state B st n).2.pubkey)
      = DHGetPublicKey B (some st.dh) st.pubkey n := by
  cases hk : st.dh.pub_key with
  | none => simp [DHGetPublicKey_state, DHGetPublicKey, hk]
  | some y =>
    by_cases hc : (MP_bytes y : Int) ≤ 0 ∨ (MP_bytes y : Int) > toInt32 n
    · simp only [DHGetPublicKey_state, DHGetPublicKey, hk, if_pos hc, and_self]
    · simp only [DHGetPublicKey_state, DHGetPublicKey, hk, if_neg hc, and_self]

/-- The state-passing form of `DHComputeSharedSecretKey` leaves the context and
returns what `DHComputeSharedSecretKey` returns. -/
lemma DHComputeSharedSecretKey_state_spec (B : Backend) (Q1024 : String) (st : DeriveState)
    (pubkey : List UInt8) (n : Nat) :
    (DHComputeSharedSecretKey_state B Q1024 st pubkey n).2.dh = st.dh ∧
    ((DHComputeSharedSecretKey_state B Q1024 st pubkey n).1,
        some (DHComputeSharedSecretKey_state B Q1024 st pubkey n).2.secret)
      = DHComputeSharedSecretKey B Q1024 (some st.dh) pubkey n (some st.secret) := by
  by_cases hn : (n : Int) ≥ INT_MAX
  · simp only [DHComputeSharedSecretKey_state, DHComputeSharedSecretKey, if_pos hn, and_self]
  · cases hb : B.MP_getbin_ok with
    | false => simp [DHComputeSharedSecretKey_state, DHComputeSharedSecretKey, hn, hb]
    | true =>
      cases hv : (isValidPublicKey (MP_getbin pubkey n) st.dh.p
          (MP_gethex_of B.USE_GNUTLS Q1024)).1 with
      | false => simp [DHComputeSharedSecretKey_state, DHComputeSharedSecretKey, hn, hb, hv]
      | true => simp [DHComputeSharedSecretKey_state, DHComputeSharedSecretKey, hn, hb, hv]

/-- Claim C15: whatever `DHGenerateKey` returns (1, or 0 after an engine failure,
after any number of retries), the context it leaves has the `p`, `g` and length it
was given.  `DHGetPublicKey` and `DHComputeSharedSecretKey`, read as assignments
to the context and the buffer they reach, return with the whole context, key
pair included, as it was, and with the int and buffer of the value-passing
definitions.  `isValidPublicKey`, read as assignments to the integers it can
reach, returns its flag with `y`, `p` and `q` as they were: the bound `p - 1` is
built in the local `bn`. -/
theorem group_parameters_unchanged (B : Backend) (Q1024 : String) (fuel : Nat) (dh : MDH)
    (c : ValidatorCells) (buf pubkey secret : List UInt8) (n : Nat) :
    (∀ out : Int × Option MDH, DHGenerateKey B Q1024 fuel (some dh) = some out →
      ∃ d2 : MDH, out.2 = some d2 ∧ d2.p = dh.p ∧ d2.g = dh.g ∧ d2.length = dh.length) ∧
    DHGenerateKey B Q1024 fuel none = some (0, none) ∧
    ((DHGetPublicKey_state B ⟨dh, buf⟩ n).2.dh = dh ∧
      ((DHGetPublicKey_state B ⟨dh, buf⟩ n).1, (DHGetPublicKey_state B ⟨dh, buf⟩ n).2.pubkey)
        = DHGetPublicKey B (some dh) buf n) ∧
    ((DHComputeSharedSecretKey_state B Q1024 ⟨dh, secret⟩ pubkey n).2.dh = dh ∧
      ((DHComputeSharedSecretKey_state B Q1024 ⟨dh, secret⟩ pubkey n).1,
          some (DHComputeSharedSecretKey_state B Q1024 ⟨dh, secret⟩ pubkey n).2.secret)
        = DHComputeSharedSecretKey B Q1024 (some dh) pubkey n (some secret)) ∧
    ((isValidPublicKey_cells c).2.y = c.y ∧ (isValidPublicKey_cells c).2.p = c.p ∧
      (isValidPublicKey_cells c).2.q = c.q ∧
      (isValidPublicKey_cells c).1 = (isValidPublicKey c.y c.p c.q).1) := by
  refine ⟨?_, rfl, DHGetPublicKey_state_spec B ⟨dh, buf⟩ n,
    DHComputeSharedSecretKey_state_spec B Q1024 ⟨dh, secret⟩ pubkey n, ?_⟩
  · intro out h
    simp only [DHGenerateKey] at h
    cases hl : DHGenerateKey_loop B Q1024 fuel 0 dh with
    | none => simp [hl] at h
    | some rd =>
      obtain ⟨r, d2⟩ := rd
      simp only [hl, Option.map_some', Option.some.injEq] at h
      refine ⟨d2, by rw [← h], DHGenerateKey_loop_frame B Q1024 fuel 0 dh d2 r hl⟩
  · have hflag := isValidPublicKey_flag c.y c.p c.q
    simp only [isValidPublicKey_cells, MP_cmp_neg_iff, MP_cmp_pos_iff, MP_set_w, MP_sub_w,
      MP_set, Nat.cast_one]
    rw [hflag]
    by_cases h1 : c.y < 1
    · simp only [h1, if_true]
      refine ⟨trivial, trivial, trivial, ?_⟩
      symm
      exact decide_eq_false (by omega)
    · by_cases h2 : c.p - 1 < c.y
      · simp only [h1, h2, if_true, if_false]
        refine ⟨trivial, trivial, trivial, ?_⟩
        symm
        exact decide_eq_false (by omega)
      · simp only [h1, h2, if_false]
        have hd : decide (1 ≤ c.y ∧ c.y ≤ c.p - 1) = true := decide_eq_true ⟨by omega, by omega⟩
        cases hq : c.q with
        | none => exact ⟨rfl, rfl, rfl, hd.symm⟩
        | some q0 => exact ⟨rfl, rfl, rfl, hd.symm⟩

/-- Witness for C15: the context left by a key generation in the group `p = 8`,
`g = 2` after one rejected candidate. -/
theorem group_parameters_unchanged_witness :
    DHGenerateKey (refBackend false (fun i => if i = 0 then 3 else 1)) "B" 2
        (some ⟨8, 2, none, none, 1024⟩)
      = some (1, some ⟨8, 2, some 2, some 1, 1024⟩) ∧
    ∃ d2 : MDH, ((1, some ⟨8, 2, some 2, some 1, 1024⟩) : Int × Option MDH).2 = some d2 ∧
      d2.p = 8 ∧ d2.g = 2 ∧ d2.length = 1024 :=
  ⟨by decide,
    (group_parameters_unchanged (refBackend false (fun i => if i = 0 then 3 else 1)) "B" 2
      ⟨8, 2, none, none, 1024⟩ ⟨2, 8, some 11, 0⟩ [9, 9] [2] [7, 7] 1).1
      (1, some ⟨8, 2, some 2, some 1, 1024⟩) (by decide)⟩

/-! ## The secret written by `DHComputeSharedSecretKey` and its return value -/

/-- Claim C12 fails when the secret is shorter than the peer value's buffer: for
the modulus 23, the private exponent 3 and the two peer bytes 0, 9 the secret is
`9 ^ 3 mod 23 = 16`, of one byte.  Both variants write the byte 16 at the start of
the secret buffer and leave the next byte as it was, where the two-byte
zero-padded encoding is 0, 16. -/
theorem DHComputeSharedSecretKey_secret_not_padded :
    (isValidPublicKey 9 23 (MP_gethex "B")).1 = true ∧ MP_getbin [0, 9] 2 = 9 ∧
    (9 : Int) ^ 3 % 23 = 16 ∧
    DHComputeSharedSecretKey (refBackend false id) "B" (some ⟨23, 2, some 8, some 3, 1024⟩)
        [0, 9] 2 (some [7, 7, 7])
      = (1, some [16, 7, 7]) ∧
    DHComputeSharedSecretKey (refBackend true id) "B" (some ⟨23, 2, some 8, some 3, 1024⟩)
        [0, 9] 2 (some [7, 7, 7])
      = (0, some [16, 7, 7]) ∧
    List.replicate (2 - MP_bytes 16) 0 ++ BN_bn2bin 16 = [0, 16] ∧
    ([16, 7, 7] : List UInt8).take 2 ≠ [0, 16] := by
  refine ⟨by decide, by decide, by decide, by decide, by decide, by decide, by decide⟩

lemma numBytesAux_zero (fuel : Nat) : numBytesAux fuel 0 = 0 := by
  cases fuel <;> simp [numBytesAux]

/-- A positive magnitude is at least `256 ^ (L - 1)` for its byte length `L`. -/
lemma pow_le_of_numBytesAux (fuel v : Nat) (hv : 0 < v) (h : v ≤ fuel) :
    256 ^ (numBytesAux fuel v - 1) ≤ v := by
  induction fuel generalizing v with
  | zero => omega
  | succ k ih =>
    unfold numBytesAux
    rw [if_neg (by omega), Nat.add_sub_cancel]
    by_cases h0 : v / 256 = 0
    · rw [h0, numBytesAux_zero]
      simpa using hv
    · have hpos : 0 < v / 256 := Nat.pos_of_ne_zero h0
      have hle : v / 256 ≤ k := by omega
      have h1 := ih (v / 256) hpos hle
      have h2 := numBytesAux_pos k (v / 256) hle hpos
      have e : numBytesAux k (v / 256) = (numBytesAux k (v / 256) - 1) + 1 := by omega
      rw [e, pow_succ]
      omega

/-- The first byte of a fixed-width encoding is the most significant one. -/
lemma bigEndian_head (k v : Nat) :
    (bigEndian (k + 1) v).head? = some (UInt8.ofNat (v / 256 ^ k % 256)) := by
  induction k generalizing v with
  | zero => simp [bigEndian]
  | succ j ih =>
    have hne : bigEndian (j + 1) (v / 256) ≠ [] := by
      intro h0
      have := bigEndian_length (j + 1) (v / 256)
      rw [h0] at this
      simp at this
    rw [bigEndian, List.head?_append_of_ne_nil _ hne, ih (v / 256), Nat.div_div_eq_div_mul,
      pow_succ, Nat.mul_comm]

/-- The minimal encoding of a non-zero integer starts with a non-zero byte. -/
lemma BN_bn2bin_head (s : Int) (hs : s ≠ 0) :
    ∃ (b : UInt8) (t : List UInt8), BN_bn2bin s = b :: t ∧ b ≠ 0 := by
  have hpos : 0 < s.natAbs := Int.natAbs_pos.mpr hs
  have hL : 0 < MP_bytes s := MP_bytes_pos s hs
  have hlow : 256 ^ (MP_bytes s - 1) ≤ s.natAbs :=
    pow_le_of_numBytesAux _ _ hpos (le_refl _)
  have hup : s.natAbs < 256 ^ MP_bytes s := natAbs_lt_pow_MP_bytes s
  have e : MP_bytes s = (MP_bytes s - 1) + 1 := by omega
  have hhead : (BN_bn2bin s).head?
      = some (UInt8.ofNat (s.natAbs / 256 ^ (MP_bytes s - 1) % 256)) := by
    unfold BN_bn2bin
    conv_lhs => rw [e]
    exact bigEndian_head _ _
  have hq1 : 1 ≤ s.natAbs / 256 ^ (MP_bytes s - 1) :=
    (Nat.one_le_div_iff (by positivity)).mpr hlow
  have hq2 : s.natAbs / 256 ^ (MP_bytes s - 1) < 256 := by
    rw [Nat.div_lt_iff_lt_mul (by positivity)]
    calc s.natAbs < 256 ^ MP_bytes s := hup
      _ = 256 ^ ((MP_bytes s - 1) + 1) := by rw [← e]
      _ = 256 * 256 ^ (MP_bytes s - 1) := by rw [pow_succ, Nat.mul_comm]
  cases hb : BN_bn2bin s with
  | nil => simp [hb] at hhead
  | cons b t =>
    refine ⟨b, t, rfl, ?_⟩
    rw [hb] at hhead
    simp only [List.head?_cons, Option.some.injEq] at hhead
    intro hzero
    have htn := toNat_ofNat_mod (s.natAbs / 256 ^ (MP_bytes s - 1))
    rw [← hhead, hzero, Nat.mod_eq_of_lt hq2] at htn
    have h0 : (0 : UInt8).toNat = 0 := rfl
    omega

/-- Claim C12, amended: for a context with the private exponent `x` and the modulus
`p`, and `n < INT_MAX` peer bytes whose value `y` passes the validator, when the
engine returns `s = y ^ x mod p` and the byte length `L` of `s` is at most `n`,
`DHComputeSharedSecretKey` leaves at the start of the secret buffer the `L` bytes
of the minimal big-endian encoding of `s`, which read back as `s`, and leaves
every later byte as it was: the secret is left-aligned and not padded.  When
`L = n` these are the `n` bytes of the right-aligned zero-padded encoding; for
`s` other than 0 the first `n` bytes of the buffer are that encoding only when
`L = n`. -/
theorem DHComputeSharedSecretKey_secret_left_aligned (B : Backend) (Q1024 : String)
    (dh : MDH) (pubkey sec : List UInt8) (n : Nat) (y : Int) (x : Nat)
    (hn : (n : Int) < INT_MAX) (hbin : B.MP_getbin_ok = true)
    (hy : MP_getbin pubkey n = y)
    (hv : (isValidPublicKey y dh.p (MP_gethex Q1024)).1 = true)
    (hx : dh.priv_key = some (x : Int))
    (hs : B.compute_key y (some (x : Int)) dh.p = some (y ^ x % dh.p))
    (hL : MP_bytes (y ^ x % dh.p) ≤ n) :
    (DHComputeSharedSecretKey B Q1024 (some dh) pubkey n (some sec)).2
      = some (BN_bn2bin (y ^ x % dh.p) ++ sec.drop (MP_bytes (y ^ x % dh.p))) ∧
    (BN_bn2bin (y ^ x % dh.p)).length = MP_bytes (y ^ x % dh.p) ∧
    (bigEndianValue (BN_bn2bin (y ^ x % dh.p)) : Int) = y ^ x % dh.p ∧
    (MP_bytes (y ^ x % dh.p) = n →
      (BN_bn2bin (y ^ x % dh.p) ++ sec.drop (MP_bytes (y ^ x % dh.p))).take n
        = List.replicate (n - MP_bytes (y ^ x % dh.p)) 0 ++ BN_bn2bin (y ^ x % dh.p)) ∧
    (y ^ x % dh.p ≠ 0 →
      (BN_bn2bin (y ^ x % dh.p) ++ sec.drop (MP_bytes (y ^ x % dh.p))).take n
        = List.replicate (n - MP_bytes (y ^ x % dh.p)) 0 ++ BN_bn2bin (y ^ x % dh.p) →
      MP_bytes (y ^ x % dh.p) = n) := by
  have hrange : 1 ≤ y ∧ y ≤ dh.p - 1 := by
    rw [isValidPublicKey_flag] at hv
    exact of_decide_eq_true hv
  have hnonneg : 0 ≤ y ^ x % dh.p := Int.emod_nonneg _ (by omega)
  have hst : store sec (BN_bn2bin (y ^ x % dh.p))
      = BN_bn2bin (y ^ x % dh.p) ++ sec.drop (MP_bytes (y ^ x % dh.p)) := by
    unfold store
    rw [BN_bn2bin_length]
  have hc := DHComputeSharedSecretKey_computed B Q1024 dh pubkey sec n y (y ^ x % dh.p) hn
    hbin hy hv (by rw [hx]; exact hs)
  refine ⟨?_, BN_bn2bin_length _, ?_, ?_, ?_⟩
  · rw [hc]
    cases B.USE_GNUTLS
    · simp [hst]
    · simp [MP_setbin, hL, hst]
  · rw [bigEndianValue_BN_bn2bin]
    exact Int.natAbs_of_nonneg hnonneg
  · intro hEq
    rw [hEq, Nat.sub_self, List.replicate_zero, List.nil_append,
      List.take_append_of_le_length (by rw [BN_bn2bin_length, hEq]),
      List.take_of_length_le (by rw [BN_bn2bin_length, hEq])]
  · intro hs0 htake
    by_contra hne
    have hlt : MP_bytes (y ^ x % dh.p) < n := by omega
    obtain ⟨b, t, hb, hb0⟩ := BN_bn2bin_head (y ^ x % dh.p) hs0
    obtain ⟨m, hm⟩ : ∃ m, n = m + 1 := ⟨n - 1, by omega⟩
    obtain ⟨j, hj⟩ : ∃ j, n - MP_bytes (y ^ x % dh.p) = j + 1 :=
      ⟨n - MP_bytes (y ^ x % dh.p) - 1, by omega⟩
    rw [hj, hb, hm] at htake
    simp only [List.cons_append, List.take_succ_cons, List.replicate_succ,
      List.cons.injEq] at htake
    exact hb0 htake.1

/-- Witness for C12: the two peer bytes 0, 9 and the exponent 3 in the group
`p = 23`; the one-byte secret 16 is written at the start of the buffer and the
second byte keeps its value 7. -/
theorem DHComputeSharedSecretKey_secret_left_aligned_witness :
    ((2 : Nat) : Int) < INT_MAX ∧ MP_getbin [0, 9] 2 = 9 ∧
    (isValidPublicKey 9 23 (MP_gethex "B")).1 = true ∧
    MP_bytes ((9 : Int) ^ 3 % 23) ≤ 2 ∧
    (DHComputeSharedSecretKey (refBackend false id) "B" (some ⟨23, 2, some 8, some 3, 1024⟩)
        [0, 9] 2 (some [7, 7, 7])).2
      = some [16, 7, 7] ∧
    (DHComputeSharedSecretKey (refBackend true id) "B" (some ⟨23, 2, some 8, some 3, 1024⟩)
        [0, 9] 2 (some [7, 7, 7])).2
      = some [16, 7, 7] :=
  ⟨by decide, by decide, by decide, by decide,
    (DHComputeSharedSecretKey_secret_left_aligned (refBackend false id) "B"
      ⟨23, 2, some 8, some 3, 1024⟩ [0, 9] [7, 7, 7] 2 9 3 (by decide) rfl (by decide)
      (by decide) rfl (by decide) (by decide)).1.trans (by decide),
    (DHComputeSharedSecretKey_secret_left_aligned (refBackend true id) "B"
      ⟨23, 2, some 8, some 3, 1024⟩ [0, 9] [7, 7, 7] 2 9 3 (by decide) rfl (by decide)
      (by decide) rfl (by decide) (by decide)).1.trans (by decide)⟩

/-- Claim C13, evaluated on the code: for the modulus 23, the private exponent 5
and the peer bytes 0, 8 the libgcrypt variant writes the one byte of
`8 ^ 5 mod 23 = 16` and returns 0, where the OpenSSL variant returns 1, the number
of bytes written. -/
theorem DHComputeSharedSecretKey_gnutls_returns_zero :
    DHComputeSharedSecretKey (refBackend true id) "B" (some ⟨23, 2, some 9, some 5, 1024⟩)
        [0, 8] 2 (some [7, 7, 7])
      = (0, some [16, 7, 7]) ∧
    DHComputeSharedSecretKey (refBackend false id) "B" (some ⟨23, 2, some 9, some 5, 1024⟩)
        [0, 8] 2 (some [7, 7, 7])
      = (1, some [16, 7, 7]) ∧
    (8 : Int) ^ 5 % 23 = 16 ∧ (BN_bn2bin 16).length = 1 := by
  refine ⟨by decide, by decide, by decide, by decide⟩

/-- The return value of `DHComputeSharedSecretKey` as coded: the call either fails,
returning -1 with the secret buffer as it was, or succeeds: context and buffer
are present, `nPubkeyLen < INT_MAX`, the peer bytes are parsed, their value
passes the validator and the engine returns a shared value `s`.  On success the
OpenSSL variant returns the number of secret bytes it wrote and the libgcrypt
variant returns 0; the result is not negative, so -1 is returned on failure
only. -/
theorem DHComputeSharedSecretKey_return_value (B : Backend) (Q1024 : String)
    (dh : Option MDH) (pubkey : List UInt8) (n : Nat) (secret : Option (List UInt8)) :
    (DHComputeSharedSecretKey B Q1024 dh pubkey n secret = (-1, secret) ∧
      ¬ ∃ (d : MDH) (sec : List UInt8) (s : Int), dh = some d ∧ secret = some sec ∧
        (n : Int) < INT_MAX ∧ B.MP_getbin_ok = true ∧
        (isValidPublicKey (MP_getbin pubkey n) d.p (MP_gethex Q1024)).1 = true ∧
        B.compute_key (MP_getbin pubkey n) d.priv_key d.p = some s) ∨
    (∃ (d : MDH) (sec : List UInt8) (s : Int), dh = some d ∧ secret = some sec ∧
        (n : Int) < INT_MAX ∧ B.MP_getbin_ok = true ∧
        (isValidPublicKey (MP_getbin pubkey n) d.p (MP_gethex Q1024)).1 = true ∧
        B.compute_key (MP_getbin pubkey n) d.priv_key d.p = some s ∧
        DHComputeSharedSecretKey B Q1024 dh pubkey n secret
          = (if B.USE_GNUTLS then (0, some (MP_setbin true s sec n))
             else (((BN_bn2bin s).length : Int), some (store sec (BN_bn2bin s)))) ∧
        0 ≤ (DHComputeSharedSecretKey B Q1024 dh pubkey n secret).1) := by
  cases dh with
  | none => exact Or.inl ⟨by simp [DHComputeSharedSecretKey], by simp⟩
  | some d =>
    cases secret with
    | none => exact Or.inl ⟨by simp [DHComputeSharedSecretKey], by simp⟩
    | some sec =>
      by_cases hn : (n : Int) ≥ INT_MAX
      · refine Or.inl ⟨DHComputeSharedSecretKey_length_guard B Q1024 d pubkey sec n hn, ?_⟩
        rintro ⟨d2, sec2, s, -, -, h, -⟩
        omega
      · cases hb : B.MP_getbin_ok with
        | false =>
          refine Or.inl ⟨?_, ?_⟩
          · simp only [DHComputeSharedSecretKey]
            rw [if_neg hn]
            simp [hb]
          · rintro ⟨d2, sec2, s, -, -, -, h, -⟩
            exact absurd h (by simp)
        | true =>
          have hq := isValidPublicKey_flag_any (MP_getbin pubkey n) d.p
            (MP_gethex_of B.USE_GNUTLS Q1024) (MP_gethex Q1024)
          cases hv : (isValidPublicKey (MP_getbin pubkey n) d.p (MP_gethex Q1024)).1 with
          | false =>
            rw [hv] at hq
            refine Or.inl ⟨?_, ?_⟩
            · simp only [DHComputeSharedSecretKey]
              rw [if_neg hn]
              simp [hb, hq]
            · rintro ⟨d2, sec2, s, hd, -, -, -, h, -⟩
              simp only [Option.some.injEq] at hd
              rw [← hd, hv] at h
              exact absurd h (by simp)
          | true =>
            rw [hv] at hq
            cases hs : B.compute_key (MP_getbin pubkey n) d.priv_key d.p with
            | none =>
              refine Or.inl ⟨?_, ?_⟩
              · simp only [DHComputeSharedSecretKey]
                rw [if_neg hn]
                simp [hb, hq, MDH_compute_key, hs]
              · rintro ⟨d2, sec2, s, hd, -, -, -, -, h⟩
                simp only [Option.some.injEq] at hd
                rw [← hd, hs] at h
                exact absurd h (by simp)
            | some s =>
              have hc := DHComputeSharedSecretKey_computed B Q1024 d pubkey sec n
                (MP_getbin pubkey n) s (by omega) hb rfl hv hs
              refine Or.inr ⟨d, sec, s, rfl, rfl, by omega, rfl, hv, hs, ?_, ?_⟩
              · rw [hc, BN_bn2bin_length]
              · rw [hc]
                cases B.USE_GNUTLS <;> simp

end Librtmp
